import Mathlib

/-!
Verification of the game-tree search engine of this repository
(generic game trees, minimax with alpha-beta pruning and memoization,
Monte Carlo tree search with rollout and with a learned evaluator).

The Python classes are embedded shallowly:

* GameState (Game.py) becomes the inductive type GState.  The engine only
  consumes a state through the capability interface (turn, previous_move,
  winner, evaluate_position, str(state), legal_moves), so a state is
  modelled as a record of exactly those observations, with legal_moves
  carrying the full (finite) subtree of reachable states.
* GameTree (Game.py), MinimaxGameTree (Player.py),
  MonteCarloSimulationGameTree (monte_carlo_simulation.py) and the
  learned-evaluator tree (MonteCarloSimulation.py / MonteCarloNeuralNetwork.py)
  become the inductive types GTree, MTree, MCTree and NNTree.
* Python floats are modelled as exact rationals; the float infinities used
  as initial alpha/beta bounds are modelled by the type XV below.
* The mutable memo dictionary of MinimaxPlayer is threaded explicitly as an
  association list with first-match lookup and cons insertion.
* math.sqrt and math.log are uninterpreted parameters (sq, lg), and the
  random number generator is an explicit oracle, so all statements hold for
  every realisation of the randomness.
-/

/-- A game state as the search engine observes it (interface of
GameState in Game.py): whose turn it is, the move that produced it,
the winner test, the static evaluation, the string representation used as
a memo key, and the list of legal successor states. -/
inductive GState : Type where
  | mk (turn : Bool) (prevMove : Option Int) (winRes : Option (Bool × Bool))
       (evalp : ℚ) (srepr : String) (moves : List GState) : GState

/-- Whose move it is next: true for player 1 (Game.py, GameState.turn). -/
@[simp]
def GState.turn : GState → Bool
  | .mk t _ _ _ _ _ => t

/-- The move that led into this state, none at the start (previous_move). -/
@[simp]
def GState.prevMove : GState → Option Int
  | .mk _ p _ _ _ _ => p

/-- Result of GameState.winner: none while the game is running, otherwise
(some player won, player 1 won). -/
@[simp]
def GState.winner : GState → Option (Bool × Bool)
  | .mk _ _ w _ _ _ => w

/-- Result of GameState.evaluate_position with the default heuristic. -/
@[simp]
def GState.evalp : GState → ℚ
  | .mk _ _ _ e _ _ => e

/-- Result of str(state), the memoization key part. -/
@[simp]
def GState.srepr : GState → String
  | .mk _ _ _ _ s _ => s

/-- Result of GameState.legal_moves. -/
@[simp]
def GState.moves : GState → List GState
  | .mk _ _ _ _ _ m => m

mutual

/-- Structural size of a state, used as a termination measure. -/
def GState.sz : GState → Nat
  | .mk _ _ _ _ _ ms => 1 + GState.szL ms

/-- Structural size of a list of states (padded so that a freshly expanded
ply of tree nodes is smaller than the state that generated it). -/
def GState.szL : List GState → Nat
  | [] => 0
  | m :: ms => GState.sz m + 2 + GState.szL ms

end

theorem GState.szL_mem {m : GState} {ms : List GState} (h : m ∈ ms) :
    GState.sz m + 2 ≤ GState.szL ms := by
  induction ms with
  | nil => cases h
  | cons a l ih =>
    rw [GState.szL]
    rcases List.mem_cons.mp h with h1 | h2
    · subst h1; omega
    · have := ih h2; omega

theorem GState.sz_lt_of_mem {m s : GState} (h : m ∈ s.moves) :
    GState.sz m < GState.sz s := by
  cases s with
  | mk t p w e r ms =>
    have := GState.szL_mem (show m ∈ ms from h)
    rw [GState.sz]; omega

mutual

/-- Structural equality test on states, the shallow stand-in for the
Python equality used on states by GameTree.expand_tree. -/
def GState.beq : GState → GState → Bool
  | .mk t1 p1 w1 e1 r1 m1, .mk t2 p2 w2 e2 r2 m2 =>
    t1 == t2 && p1 == p2 && w1 == w2 && e1 == e2 && r1 == r2 && GState.beqL m1 m2

/-- Structural equality test on lists of states. -/
def GState.beqL : List GState → List GState → Bool
  | [], [] => true
  | a :: as, b :: bs => GState.beq a b && GState.beqL as bs
  | _, _ => false

end

/-- A node of the generic game tree (GameTree in Game.py): the root state
and the list of child subtrees, empty until expanded. -/
inductive GTree : Type where
  | mk (root : GState) (children : List GTree) : GTree

/-- The state at this node (GameTree.root). -/
@[simp]
def GTree.root : GTree → GState
  | .mk r _ => r

/-- The child subtrees of this node (GameTree.children). -/
@[simp]
def GTree.children : GTree → List GTree
  | .mk _ c => c

/-- GameTree.expand_tree (Game.py, lines 327-341): if the target state is
this node's root and there are no children yet, create one child per legal
move of the root; if children already exist, do nothing; otherwise recurse
into every child. -/
def GTree.expandTree : GTree → GState → GTree
  | .mk r cs, s =>
    if GState.beq s r then
      if cs.isEmpty then .mk r (r.moves.map (fun m => GTree.mk m []))
      else .mk r cs
    else
      .mk r (cs.attach.map (fun c => GTree.expandTree c.1 s))
termination_by t _ => sizeOf t
decreasing_by
  simp_wf
  have := List.sizeOf_lt_of_mem c.2
  omega

/-- GameTree.make_move (Game.py, lines 343-354): scan the children for the
first one whose root has the same previous_move as the argument; on a match
the matched child's children become the node's children and the argument
becomes the root; otherwise MoveNotLegalError is raised, modelled by the
boolean flag, and the node (returned first component) is untouched. -/
def GTree.makeMove (t : GTree) (s : GState) : GTree × Bool :=
  match t.children.find? (fun c => c.root.prevMove == s.prevMove) with
  | some c => (GTree.mk s c.children, false)
  | none => (t, true)

/-- Extended evaluation values: rationals together with the two float
infinities used as the initial alpha and beta bounds in Player.py. -/
abbrev XV : Type := WithBot (WithTop ℚ)

/-- Embeds a finite evaluation into the extended values. -/
def XV.fin (q : ℚ) : XV := ((q : WithTop ℚ) : XV)

/-- A node of the minimax game tree (MinimaxGameTree in Player.py):
root state, cached value (none until computed) and children. -/
inductive MTree : Type where
  | mk (root : GState) (value : Option XV) (children : List MTree) : MTree

/-- The state at this node. -/
@[simp]
def MTree.root : MTree → GState
  | .mk r _ _ => r

/-- The value stored at this node, none before any search. -/
@[simp]
def MTree.value : MTree → Option XV
  | .mk _ v _ => v

/-- The child subtrees of this node. -/
@[simp]
def MTree.children : MTree → List MTree
  | .mk _ _ c => c

/-- The stored value, defaulting to 0; by findValue_sets_value the default
is never consulted on a tree returned by the search, mirroring that the
Python code only reads child.value after child.find_value has run. -/
def MTree.valD (t : MTree) : XV :=
  match t.value with
  | some w => w
  | none => 0

mutual

/-- Structural size of a minimax tree, the termination measure of the
minimax search. -/
def MTree.sz : MTree → Nat
  | .mk r _ cs => 1 + GState.sz r + MTree.szL cs

/-- Structural size of a list of minimax trees. -/
def MTree.szL : List MTree → Nat
  | [] => 0
  | c :: cs => 1 + MTree.sz c + MTree.szL cs

end

theorem MTree.szL_map_leaf (ms : List GState) :
    MTree.szL (ms.map (fun m => MTree.mk m none [])) = GState.szL ms := by
  induction ms with
  | nil => rfl
  | cons a l ih =>
    rw [List.map_cons, MTree.szL, GState.szL, ih, MTree.sz, MTree.szL]
    omega

/-- The key of the minimax memo table: search depth (-1 for an unbounded
search), string representation of the state, and the alpha and beta bounds
in force (Player.py, lines 59-70). -/
abbrev MemoKey : Type := Int × String × XV × XV

/-- The memo dictionary, threaded explicitly: later entries are consed in
front, and lookup takes the first match, which models assignment into and
lookup from a Python dict keyed by MemoKey. -/
abbrev Memo : Type := List (MemoKey × XV)

/-- Dictionary lookup in the memo table. -/
def mlookup : Memo → MemoKey → Option XV
  | [], _ => none
  | (k, v) :: rest, key => if k = key then some v else mlookup rest key

/-- The memo key computed at entry of MinimaxGameTree.find_value
(Player.py, lines 65-70). -/
def memoKey (s : GState) (depth : Int) (alpha beta : XV) : MemoKey :=
  (if depth < 0 then -1 else depth, s.srepr, alpha, beta)

/-- Outcome of the alpha-beta child loop: the children list after the loop
(with evaluated children updated in place and, after a cutoff, the
remaining siblings untouched), the memo table, the value the loop decided
on, and whether a cutoff happened. -/
structure ABOut : Type where
  kids : List MTree
  memo : Memo
  val : XV
  cut : Bool

mutual

/-- MinimaxGameTree.find_value (Player.py, lines 46-119).  Computes the
minimax value of the root with alpha-beta pruning and memoization and
stores it in the returned node; the threaded memo table models the
mutable memoize dictionary.  Following the source: a memo hit returns the
cached value with no expansion; at depth 0 or on a finished game the value
is the static evaluation of the root, returned without being memoized;
otherwise the node is expanded (one child per legal move if there are no
children yet) and the maximizing or minimizing child loop runs, after
which the decided value is memoized under the entry key. -/
def findValue : MTree → Memo → Int → XV → XV → MTree × Memo
  | .mk r _v cs, memo, depth, alpha, beta =>
    match mlookup memo (memoKey r depth alpha beta) with
    | some w => (.mk r (some w) cs, memo)
    | none =>
      if depth = 0 || (r.winner).isSome then
        (.mk r (some (XV.fin r.evalp)) cs, memo)
      else
        let cs1 := if cs.isEmpty then r.moves.map (fun m => MTree.mk m none []) else cs
        if r.turn then
          let o := goMax cs1 memo depth alpha beta
          (.mk r (some o.val) o.kids, (memoKey r depth alpha beta, o.val) :: o.memo)
        else
          let o := goMin cs1 memo depth alpha beta
          (.mk r (some o.val) o.kids, (memoKey r depth alpha beta, o.val) :: o.memo)
termination_by t _ _ _ _ => MTree.sz t
decreasing_by
  · rw [MTree.sz]
    split
    · cases r with
      | mk t p w e s ms =>
        simp only [GState.moves, GState.sz]
        rw [MTree.szL_map_leaf]
        omega
    · omega
  · rw [MTree.sz]
    split
    · cases r with
      | mk t p w e s ms =>
        simp only [GState.moves, GState.sz]
        rw [MTree.szL_map_leaf]
        omega
    · omega

/-- The maximizing child loop of find_value (Player.py, lines 83-98):
evaluate each child at depth - 1 under the current window, raise alpha to
the child value, and on alpha >= beta stop with the fail-hard value beta,
leaving the remaining siblings unevaluated; if the loop runs out of
children the value is the final alpha. -/
def goMax : List MTree → Memo → Int → XV → XV → ABOut
  | [], memo, _, alpha, _ => ⟨[], memo, alpha, false⟩
  | c :: rest, memo, depth, alpha, beta =>
    let p := findValue c memo (depth - 1) alpha beta
    let alpha1 := max alpha p.1.valD
    if beta ≤ alpha1 then ⟨p.1 :: rest, p.2, beta, true⟩
    else
      let o := goMax rest p.2 depth alpha1 beta
      ⟨p.1 :: o.kids, o.memo, o.val, o.cut⟩
termination_by cs _ _ _ _ => MTree.szL cs
decreasing_by
  · rw [MTree.szL]; omega
  · rw [MTree.szL]; omega

/-- The minimizing child loop of find_value (Player.py, lines 101-116):
evaluate each child at depth - 1 under the current window, lower beta to
the child value, and on alpha >= beta stop with the fail-hard value alpha,
leaving the remaining siblings unevaluated; if the loop runs out of
children the value is the final beta. -/
def goMin : List MTree → Memo → Int → XV → XV → ABOut
  | [], memo, _, _, beta => ⟨[], memo, beta, false⟩
  | c :: rest, memo, depth, alpha, beta =>
    let p := findValue c memo (depth - 1) alpha beta
    let beta1 := min beta p.1.valD
    if beta1 ≤ alpha then ⟨p.1 :: rest, p.2, alpha, true⟩
    else
      let o := goMin rest p.2 depth alpha beta1
      ⟨p.1 :: o.kids, o.memo, o.val, o.cut⟩
termination_by cs _ _ _ _ => MTree.szL cs
decreasing_by
  · rw [MTree.szL]; omega
  · rw [MTree.szL]; omega

end

theorem findValue_sets_value (t : MTree) (memo : Memo) (depth : Int) (alpha beta : XV) :
    ((findValue t memo depth alpha beta).1.value).isSome = true := by
  cases t with
  | mk r v cs =>
    rw [findValue]
    cases hm : mlookup memo (memoKey r depth alpha beta) with
    | some w => rfl
    | none =>
      dsimp only
      by_cases hc : (decide (depth = 0) || (r.winner).isSome) = true
      · rw [if_pos hc]
        rfl
      · rw [if_neg hc]
        by_cases ht : r.turn = true
        · rw [if_pos ht]
          rfl
        · rw [if_neg ht]
          rfl


/-- MinimaxGameTree.make_move (Player.py, lines 134-148): like the generic
make_move, but the matched child's stored value is also promoted. -/
def MTree.makeMove (t : MTree) (s : GState) : MTree × Bool :=
  match t.children.find? (fun c => c.root.prevMove == s.prevMove) with
  | some c => (MTree.mk s c.value c.children, false)
  | none => (t, true)

/-- MinimaxGameTree.copy (Player.py, lines 150-152): builds a new
MinimaxGameTree from a copy of the root state and the stored value; the
constructor initialises the children to the empty list, so the descendants
of the node are not cloned. -/
def MTree.copyM (t : MTree) : MTree :=
  MTree.mk t.root t.value []

/-- Spec-side maximizing iteration, written from the claim: iterate the
children's values keeping alpha = max(alpha, childValue); as soon as
alpha >= beta the result is the fail-hard bound beta and the iteration
stops; if all children are consumed the result is the final alpha. -/
def specMaxPhase : List XV → XV → XV → XV
  | [], alpha, _ => alpha
  | w :: ws, alpha, beta =>
    let a := max alpha w
    if beta ≤ a then beta else specMaxPhase ws a beta

/-- Spec-side minimizing iteration, written from the claim: iterate the
children's values keeping beta = min(beta, childValue); as soon as
alpha >= beta the result is the fail-hard bound alpha and the iteration
stops; if all children are consumed the result is the final beta. -/
def specMinPhase : List XV → XV → XV → XV
  | [], _, beta => beta
  | w :: ws, alpha, beta =>
    let b := min beta w
    if b ≤ alpha then alpha else specMinPhase ws alpha b

/-- A node of the rollout Monte Carlo tree
(MonteCarloSimulationGameTree in monte_carlo_simulation.py): root state,
accumulated value, visit count (initialised to 1 by the constructor),
the configured iteration count and exploration parameter, and children. -/
inductive MCTree : Type where
  | mk (root : GState) (value : ℚ) (visits : Nat) (repeats : Nat) (ec : ℚ)
       (children : List MCTree) : MCTree

/-- The state at this node. -/
@[simp]
def MCTree.root : MCTree → GState
  | .mk r _ _ _ _ _ => r

/-- The accumulated reward of this node. -/
@[simp]
def MCTree.value : MCTree → ℚ
  | .mk _ v _ _ _ _ => v

/-- The number of times this node has been visited. -/
@[simp]
def MCTree.visits : MCTree → Nat
  | .mk _ _ n _ _ _ => n

/-- The configured number of search iterations (the repeat attribute). -/
@[simp]
def MCTree.repeats : MCTree → Nat
  | .mk _ _ _ rp _ _ => rp

/-- The exploration parameter of this node. -/
@[simp]
def MCTree.ec : MCTree → ℚ
  | .mk _ _ _ _ e _ => e

/-- The child subtrees of this node. -/
@[simp]
def MCTree.children : MCTree → List MCTree
  | .mk _ _ _ _ _ c => c

/-- MonteCarloSimulationGameTree.ucb (monte_carlo_simulation.py, lines
165-179): infinite priority for a never-visited node, otherwise the
exploration term plus the exploitation term value / visits.  The
transcendental functions math.sqrt and math.log are uninterpreted
parameters sq and lg, so every statement below holds for any realisation
of them. -/
def MCTree.ucbR (sq lg : ℚ → ℚ) (t : MCTree) (visitsParent : Nat) : WithTop ℚ :=
  if t.visits = 0 then ⊤
  else ((t.ec * sq (lg (visitsParent : ℚ) / (t.visits : ℚ))
         + t.value / (t.visits : ℚ) : ℚ) : WithTop ℚ)

/-- The scanning loop of MonteCarloGameTree.select_child
(monte_carlo_simulation.py, lines 81-92), tracking the current best child
and its position: a later child replaces the current best exactly when its
ucb is strictly greater. -/
def selGo (sq lg : ℚ → ℚ) (vp : Nat) : List MCTree → MCTree → Nat → Nat → MCTree × Nat
  | [], best, bi, _ => (best, bi)
  | c :: rest, best, bi, i =>
    if MCTree.ucbR sq lg best vp < MCTree.ucbR sq lg c vp
    then selGo sq lg vp rest c i (i + 1)
    else selGo sq lg vp rest best bi (i + 1)

/-- MonteCarloGameTree.select_child (monte_carlo_simulation.py, lines
81-92): start from the first child and scan the whole list, keeping the
child of maximal ucb (first one on ties); also returns its index.  The
source has the precondition children != []; on an empty list the node
itself is returned as a dummy. -/
def MCTree.selectChild (sq lg : ℚ → ℚ) (t : MCTree) : MCTree × Nat :=
  match t.children with
  | [] => (t, 0)
  | c :: rest => selGo sq lg t.visits rest c 0 1

theorem selGo_mem (sq lg : ℚ → ℚ) (vp : Nat) :
    ∀ (cs : List MCTree) (best : MCTree) (bi i : Nat),
      (selGo sq lg vp cs best bi i).1 = best ∨ (selGo sq lg vp cs best bi i).1 ∈ cs := by
  intro cs
  induction cs with
  | nil => intro best bi i; left; rfl
  | cons c rest ih =>
    intro best bi i
    rw [selGo]
    by_cases hb : MCTree.ucbR sq lg best vp < MCTree.ucbR sq lg c vp
    · simp only [hb, if_true]
      rcases ih c i (i + 1) with h | h
      · right; rw [h]; exact List.mem_cons_self c rest
      · right; exact List.mem_cons_of_mem c h
    · simp only [hb, if_false]
      rcases ih best bi (i + 1) with h | h
      · left; exact h
      · right; exact List.mem_cons_of_mem c h

theorem selectChild_mem (sq lg : ℚ → ℚ) (t : MCTree) (h : t.children ≠ []) :
    (MCTree.selectChild sq lg t).1 ∈ t.children := by
  cases t with
  | mk r v n rp e cs =>
    cases cs with
    | nil => exact absurd rfl h
    | cons c rest =>
      rw [MCTree.selectChild]
      simp only [MCTree.children, MCTree.visits]
      rcases selGo_mem sq lg n rest c 0 1 with h1 | h1
      · rw [h1]; exact List.mem_cons_self c rest
      · exact List.mem_cons_of_mem c h1

mutual

/-- Well-formedness of a Monte Carlo tree: every child is structurally
below its parent state.  This holds for every tree the engine builds
(children always come from legal_moves of the root) and serves as the
termination certificate of the search recursion. -/
def MCTree.wfB : MCTree → Bool
  | .mk r _ _ _ _ cs => MCTree.wfL (GState.sz r) cs

/-- Well-formedness of a child list under the parent bound. -/
def MCTree.wfL : Nat → List MCTree → Bool
  | _, [] => true
  | b, c :: cs => (decide (GState.sz (MCTree.root c) < b) && MCTree.wfB c) && MCTree.wfL b cs

end

theorem MCTree.wfL_mem {b : Nat} {cs : List MCTree} {c : MCTree}
    (h : MCTree.wfL b cs = true) (hm : c ∈ cs) :
    MCTree.wfB c = true ∧ GState.sz (MCTree.root c) < b := by
  induction cs with
  | nil => cases hm
  | cons a l ih =>
    rw [MCTree.wfL] at h
    simp only [Bool.and_eq_true, decide_eq_true_eq] at h
    rcases List.mem_cons.mp hm with h1 | h2
    · subst h1; exact ⟨h.1.2, h.1.1⟩
    · exact ih h.2 h2

theorem MCTree.wfB_children {r : GState} {v : ℚ} {n rp : Nat} {e : ℚ} {cs : List MCTree}
    (h : MCTree.wfB (MCTree.mk r v n rp e cs) = true) :
    MCTree.wfL (GState.sz r) cs = true := h

/-- The random inputs consumed by one rollout search iteration: the index
chosen by random.choice at the expansion step and the final winner tuple
of the uniformly random playout of move_value. -/
structure RngO : Type where
  pick : Nat → Nat
  pl : GState → Bool × Bool

/-- Modelled from the spec: the snake-case module game.py is not under
src (only its camel-case twin Game.py is), and move_value runs its
play_game on two RandomPlayers.  Per the spec this plays both sides
uniformly at random until a terminal state and returns the winner tuple;
play_game checks the winner before every move, so on an already finished
game it returns the real winner without consulting the randomness. -/
def playGameResult (pl : GState → Bool × Bool) (s : GState) : Bool × Bool :=
  match s.winner with
  | some w0 => w0
  | none => pl s

/-- MonteCarloSimulationGameTree.move_value (monte_carlo_simulation.py,
lines 181-197): run one random playout from the root; if somebody won,
the reward is 1 when the winning side differs from root.turn and 0 when it
equals root.turn; on a tie the reward is 0.5. -/
def moveValueR (pl : GState → Bool × Bool) (s : GState) : ℚ :=
  let w := playGameResult pl s
  if w.1 then (if w.2 ≠ s.turn then 1 else 0) else 1/2

/-- MonteCarloGameTree.monte_carlo_tree_search (monte_carlo_simulation.py,
lines 48-79), one search iteration.  A node with children descends into
the child selected by ucb and receives that call's return as its reward; a
leaf is expanded, and if the expansion produced children a random one is
simulated with move_value, its own value and visits updated, and the
flipped simulation value becomes this node's reward; a leaf with no legal
moves simulates itself.  The node adds the reward to its value, increments
its visits, and returns 1 - reward to its caller, flipping the polarity by
one ply. -/
def mctsIter (sq lg : ℚ → ℚ) (o : RngO) :
    (t : MCTree) → MCTree.wfB t = true → MCTree × ℚ
  | .mk r v n rp e cs, h =>
    if hcs : cs.isEmpty then
      let cs1 := r.moves.map (fun m => MCTree.mk m 0 1 rp e [])
      if cs1.isEmpty then
        let reward := moveValueR o.pl r
        (.mk r (v + reward) (n + 1) rp e cs1, 1 - reward)
      else
        let k := o.pick cs1.length % cs1.length
        let c := cs1.getD k (MCTree.mk r 0 1 rp e [])
        let r0 := moveValueR o.pl (MCTree.root c)
        let reward := 1 - r0
        let c1 := MCTree.mk (MCTree.root c) (MCTree.value c + (1 - reward))
                    (MCTree.visits c + 1) rp e (MCTree.children c)
        (.mk r (v + reward) (n + 1) rp e (cs1.set k c1), 1 - reward)
    else
      let sel := MCTree.selectChild sq lg (.mk r v n rp e cs)
      have hm : sel.1 ∈ cs := selectChild_mem sq lg (.mk r v n rp e cs)
        (by simpa [List.isEmpty_iff] using hcs)
      have hw : MCTree.wfB sel.1 = true := (MCTree.wfL_mem (MCTree.wfB_children h) hm).1
      let pr := mctsIter sq lg o sel.1 hw
      (.mk r (v + pr.2) (n + 1) rp e (cs.set sel.2 pr.1), 1 - pr.2)
termination_by t _ => GState.sz (MCTree.root t)
decreasing_by
  simp only [MCTree.root]
  exact (MCTree.wfL_mem (MCTree.wfB_children h) hm).2

theorem GState.sz_pos (s : GState) : 1 ≤ GState.sz s := by
  cases s with
  | mk t p w e r ms => rw [GState.sz]; omega

theorem mctsIter_root (sq lg : ℚ → ℚ) (o : RngO) (t : MCTree)
    (h : MCTree.wfB t = true) : (mctsIter sq lg o t h).1.root = t.root := by
  cases t with
  | mk r v n rp e cs =>
    rw [mctsIter]
    split
    · dsimp only
      split
      · rfl
      · rfl
    · rfl

theorem MCTree.wfL_iff {b : Nat} {cs : List MCTree} :
    MCTree.wfL b cs = true ↔
      ∀ c ∈ cs, MCTree.wfB c = true ∧ GState.sz (MCTree.root c) < b := by
  constructor
  · intro h c hm; exact MCTree.wfL_mem h hm
  · intro h
    induction cs with
    | nil => rfl
    | cons a l ih =>
      rw [MCTree.wfL]
      have ha := h a (List.mem_cons_self a l)
      simp only [Bool.and_eq_true, decide_eq_true_eq]
      exact ⟨⟨ha.2, ha.1⟩, ih (fun c hc => h c (List.mem_cons_of_mem a hc))⟩


theorem mctsIter_wfB (sq lg : ℚ → ℚ) (o : RngO) :
    ∀ (N : Nat) (t : MCTree) (h : MCTree.wfB t = true),
      GState.sz (MCTree.root t) ≤ N → MCTree.wfB (mctsIter sq lg o t h).1 = true := by
  intro N
  induction N with
  | zero =>
    intro t h hsz
    have := GState.sz_pos (MCTree.root t)
    omega
  | succ N0 ih =>
    intro t h hsz
    cases t with
    | mk r v n rp e cs =>
      rw [mctsIter]
      split
      next hcs =>
        dsimp only
        split
        next hce =>
          rw [List.isEmpty_iff] at hce
          rw [MCTree.wfB, hce]
          rfl
        next hce =>
          rw [MCTree.wfB, MCTree.wfL_iff]
          intro c hc
          have hstep : ∀ d ∈ List.map (fun m => MCTree.mk m 0 1 rp e []) (GState.moves r),
              MCTree.wfB d = true ∧ GState.sz (MCTree.root d) < GState.sz r := by
            intro d hd
            obtain ⟨m, hm1, hm2⟩ := List.mem_map.mp hd
            subst hm2
            refine ⟨by rw [MCTree.wfB]; rfl, ?_⟩
            simpa [MCTree.root] using GState.sz_lt_of_mem hm1
          rcases List.mem_or_eq_of_mem_set hc with h1 | h1
          · exact hstep c h1
          · have hne : List.map (fun m => MCTree.mk m 0 1 rp e []) (GState.moves r) ≠ [] := by
              intro hh
              rw [hh] at hce
              exact hce rfl
            have hlen : 0 < (List.map (fun m => MCTree.mk m 0 1 rp e []) (GState.moves r)).length :=
              List.length_pos.mpr hne
            have hkl : o.pick (List.map (fun m => MCTree.mk m 0 1 rp e [])
                (GState.moves r)).length %
                (List.map (fun m => MCTree.mk m 0 1 rp e []) (GState.moves r)).length <
                (List.map (fun m => MCTree.mk m 0 1 rp e []) (GState.moves r)).length :=
              Nat.mod_lt _ hlen
            have hg := List.getD_eq_getElem (List.map (fun m => MCTree.mk m 0 1 rp e [])
              (GState.moves r)) (MCTree.mk r 0 1 rp e []) hkl
            have hmem : (List.map (fun m => MCTree.mk m 0 1 rp e [])
                (GState.moves r)).getD (o.pick (List.map (fun m => MCTree.mk m 0 1 rp e [])
                  (GState.moves r)).length %
                  (List.map (fun m => MCTree.mk m 0 1 rp e []) (GState.moves r)).length)
                (MCTree.mk r 0 1 rp e []) ∈
                List.map (fun m => MCTree.mk m 0 1 rp e []) (GState.moves r) := by
              rw [hg]
              exact List.getElem_mem hkl
            have hd := hstep _ hmem
            subst h1
            constructor
            · obtain ⟨m, hm1, hm2⟩ := List.mem_map.mp hmem
              rw [← hm2]
              rw [MCTree.wfB]
              rfl
            · obtain ⟨m, hm1, hm2⟩ := List.mem_map.mp hmem
              rw [← hm2]
              simpa [MCTree.root] using GState.sz_lt_of_mem hm1
      next hcs =>
        rw [MCTree.wfB, MCTree.wfL_iff]
        intro c hc
        have hm : (MCTree.selectChild sq lg (MCTree.mk r v n rp e cs)).1 ∈ cs :=
          selectChild_mem sq lg (MCTree.mk r v n rp e cs)
            (by simpa [List.isEmpty_iff] using hcs)
        have hw := (MCTree.wfL_mem (MCTree.wfB_children h) hm)
        rcases List.mem_or_eq_of_mem_set hc with h1 | h1
        · exact MCTree.wfL_mem (MCTree.wfB_children h) h1
        · subst h1
          have hr := mctsIter_root sq lg o
            (MCTree.selectChild sq lg (MCTree.mk r v n rp e cs)).1 hw.1
          have hsz2 : GState.sz (MCTree.root
              (MCTree.selectChild sq lg (MCTree.mk r v n rp e cs)).1) ≤ N0 := by
            have hsz3 : GState.sz (MCTree.root (MCTree.mk r v n rp e cs)) ≤ N0 + 1 := hsz
            simp only [MCTree.root] at hsz3
            omega
          refine ⟨ih _ hw.1 hsz2, ?_⟩
          rw [hr]
          simpa [MCTree.root] using hw.2

/-- One iteration of the rollout search as used by find_value: on the
well-formed trees the engine builds this is exactly monte_carlo_tree_search
(discarding the returned reward, as find_value does). -/
def mctsStep (sq lg : ℚ → ℚ) (o : RngO) (t : MCTree) : MCTree :=
  if h : MCTree.wfB t = true then (mctsIter sq lg o t h).1 else t

/-- MonteCarloGameTree.find_value generalised to any iteration count
(monte_carlo_simulation.py, lines 43-46 run it repeat times): perform the
given number of search iterations from the root, each consuming its own
random inputs. -/
def mctsN (sq lg : ℚ → ℚ) (os : Nat → RngO) : Nat → MCTree → MCTree
  | 0, t => t
  | k + 1, t => mctsN sq lg os k (mctsStep sq lg (os k) t)

/-- MonteCarloSimulationGameTree.copy (monte_carlo_simulation.py, lines
199-208): a new node built by the constructor from a copy of the root
state, the repeat count, the exploration parameter and the value - the
constructor sets visits to 1 - and then the recursively copied children. -/
def MCTree.copyR : MCTree → MCTree
  | .mk r v _ rp e cs => .mk r v 1 rp e (cs.attach.map (fun c => MCTree.copyR c.1))
termination_by t => sizeOf t
decreasing_by
  simp_wf
  have := List.sizeOf_lt_of_mem c.2
  omega

/-- MonteCarloSimulationGameTree.make_move (monte_carlo_simulation.py,
lines 148-163): like the generic make_move, but the matched child's value
and visit count are also promoted. -/
def MCTree.makeMove (t : MCTree) (s : GState) : MCTree × Bool :=
  match t.children.find? (fun c => c.root.prevMove == s.prevMove) with
  | some c => (MCTree.mk s c.value c.visits t.repeats t.ec c.children, false)
  | none => (t, true)

mutual

/-- The reward-count invariant of the rollout search: at every node the
accumulated value lies between 0 and visits, and visits is at least 1. -/
def MCTree.bnd : MCTree → Bool
  | .mk _ v n _ _ cs =>
    (decide (0 ≤ v) && decide (v ≤ (n : ℚ)) && decide (1 ≤ n)) && MCTree.bndL cs

/-- The reward-count invariant on a list of children. -/
def MCTree.bndL : List MCTree → Bool
  | [] => true
  | c :: cs => MCTree.bnd c && MCTree.bndL cs

end

theorem MCTree.bndL_iff {cs : List MCTree} :
    MCTree.bndL cs = true ↔ ∀ c ∈ cs, MCTree.bnd c = true := by
  induction cs with
  | nil => simp [MCTree.bndL]
  | cons a l ih =>
    rw [MCTree.bndL]
    simp only [Bool.and_eq_true, ih]
    constructor
    · rintro ⟨h1, h2⟩ c hc
      rcases List.mem_cons.mp hc with h3 | h3
      · subst h3; exact h1
      · exact h2 c h3
    · intro hall
      exact ⟨hall a (List.mem_cons_self a l), fun c hc => hall c (List.mem_cons_of_mem a hc)⟩

theorem MCTree.bnd_fields {r : GState} {v : ℚ} {n rp : Nat} {e : ℚ} {cs : List MCTree}
    (h : MCTree.bnd (MCTree.mk r v n rp e cs) = true) :
    0 ≤ v ∧ v ≤ (n : ℚ) ∧ 1 ≤ n ∧ MCTree.bndL cs = true := by
  rw [MCTree.bnd] at h
  simp only [Bool.and_eq_true, decide_eq_true_eq] at h
  exact ⟨h.1.1.1, h.1.1.2, h.1.2, h.2⟩

theorem MCTree.bnd_intro {r : GState} {v : ℚ} {n rp : Nat} {e : ℚ} {cs : List MCTree}
    (h1 : 0 ≤ v) (h2 : v ≤ (n : ℚ)) (h3 : 1 ≤ n) (h4 : MCTree.bndL cs = true) :
    MCTree.bnd (MCTree.mk r v n rp e cs) = true := by
  rw [MCTree.bnd]
  simp only [Bool.and_eq_true, decide_eq_true_eq]
  exact ⟨⟨⟨h1, h2⟩, h3⟩, h4⟩

theorem moveValueR_bounds (pl : GState → Bool × Bool) (s : GState) :
    0 ≤ moveValueR pl s ∧ moveValueR pl s ≤ 1 := by
  rw [moveValueR]
  rcases playGameResult pl s with ⟨d, p1⟩
  dsimp only
  split_ifs <;> norm_num

theorem mctsIter_bnd (sq lg : ℚ → ℚ) (o : RngO) :
    ∀ (N : Nat) (t : MCTree) (h : MCTree.wfB t = true),
      GState.sz (MCTree.root t) ≤ N → MCTree.bnd t = true →
      MCTree.bnd (mctsIter sq lg o t h).1 = true ∧
        0 ≤ (mctsIter sq lg o t h).2 ∧ (mctsIter sq lg o t h).2 ≤ 1 := by
  intro N
  induction N with
  | zero =>
    intro t h hsz hb
    have := GState.sz_pos (MCTree.root t)
    omega
  | succ N0 ih =>
    intro t h hsz hb
    cases t with
    | mk r v n rp e cs =>
      obtain ⟨hv0, hvn, hn1, hcsb⟩ := MCTree.bnd_fields hb
      rw [mctsIter]
      split
      next hcs =>
        dsimp only
        have hmv := moveValueR_bounds o.pl r
        split
        next hce =>
          rw [List.isEmpty_iff] at hce
          refine ⟨?_, by dsimp only; constructor <;> nlinarith [hmv.1, hmv.2]⟩
          rw [hce]
          refine MCTree.bnd_intro ?_ ?_ (by omega) rfl
          · nlinarith [hmv.1]
          · push_cast
            nlinarith [hmv.2]
        next hce =>
          have hmvc := moveValueR_bounds o.pl
            (MCTree.root ((List.map (fun m => MCTree.mk m 0 1 rp e [])
              (GState.moves r)).getD (o.pick (List.map (fun m => MCTree.mk m 0 1 rp e [])
                (GState.moves r)).length %
                (List.map (fun m => MCTree.mk m 0 1 rp e []) (GState.moves r)).length)
              (MCTree.mk r 0 1 rp e [])))
          constructor
          · refine MCTree.bnd_intro ?_ ?_ (by omega) ?_
            · nlinarith [hmvc.2]
            · push_cast
              nlinarith [hmvc.1]
            · rw [MCTree.bndL_iff]
              intro c hc
              have hnew : ∀ d ∈ List.map (fun m => MCTree.mk m 0 1 rp e []) (GState.moves r),
                  MCTree.bnd d = true := by
                intro d hd
                obtain ⟨m, hm1, hm2⟩ := List.mem_map.mp hd
                subst hm2
                exact MCTree.bnd_intro (le_refl 0) (by norm_num) (le_refl 1) rfl
              rcases List.mem_or_eq_of_mem_set hc with h1 | h1
              · exact hnew c h1
              · subst h1
                have hne : List.map (fun m => MCTree.mk m 0 1 rp e []) (GState.moves r) ≠ [] := by
                  intro hh
                  rw [hh] at hce
                  exact hce rfl
                have hlen : 0 < (List.map (fun m => MCTree.mk m 0 1 rp e [])
                    (GState.moves r)).length := List.length_pos.mpr hne
                have hkl := Nat.mod_lt (o.pick (List.map (fun m => MCTree.mk m 0 1 rp e [])
                  (GState.moves r)).length) hlen
                have hg := List.getD_eq_getElem (List.map (fun m => MCTree.mk m 0 1 rp e [])
                  (GState.moves r)) (MCTree.mk r 0 1 rp e []) hkl
                have hmem : (List.map (fun m => MCTree.mk m 0 1 rp e [])
                    (GState.moves r)).getD (o.pick (List.map (fun m => MCTree.mk m 0 1 rp e [])
                      (GState.moves r)).length %
                      (List.map (fun m => MCTree.mk m 0 1 rp e []) (GState.moves r)).length)
                    (MCTree.mk r 0 1 rp e []) ∈
                    List.map (fun m => MCTree.mk m 0 1 rp e []) (GState.moves r) := by
                  rw [hg]
                  exact List.getElem_mem hkl
                obtain ⟨m, hm1, hm2⟩ := List.mem_map.mp hmem
                rw [← hm2]
                simp only [MCTree.root, MCTree.value, MCTree.visits, MCTree.children]
                rw [← hm2] at hmvc
                simp only [MCTree.root] at hmvc
                refine MCTree.bnd_intro ?_ ?_ (by omega) rfl
                · nlinarith [hmvc.1]
                · push_cast
                  nlinarith [hmvc.2]
          · dsimp only
            constructor <;> nlinarith [hmvc.1, hmvc.2]
      next hcs =>
        have hm : (MCTree.selectChild sq lg (MCTree.mk r v n rp e cs)).1 ∈ cs :=
          selectChild_mem sq lg (MCTree.mk r v n rp e cs)
            (by simpa [List.isEmpty_iff] using hcs)
        have hw := MCTree.wfL_mem (MCTree.wfB_children h) hm
        have hsz2 : GState.sz (MCTree.root
            (MCTree.selectChild sq lg (MCTree.mk r v n rp e cs)).1) ≤ N0 := by
          have hsz3 : GState.sz r ≤ N0 + 1 := by simpa [MCTree.root] using hsz
          have := hw.2
          omega
        have hcb : MCTree.bnd (MCTree.selectChild sq lg (MCTree.mk r v n rp e cs)).1 = true :=
          MCTree.bndL_iff.mp hcsb _ hm
        have hrec := ih (MCTree.selectChild sq lg (MCTree.mk r v n rp e cs)).1 hw.1 hsz2 hcb
        constructor
        · refine MCTree.bnd_intro ?_ ?_ (by omega) ?_
          · nlinarith [hrec.2.1]
          · push_cast
            nlinarith [hrec.2.2]
          · rw [MCTree.bndL_iff]
            intro c hc
            rcases List.mem_or_eq_of_mem_set hc with h1 | h1
            · exact MCTree.bndL_iff.mp hcsb c h1
            · subst h1
              exact hrec.1
        · exact ⟨sub_nonneg.mpr hrec.2.2, sub_le_self 1 hrec.2.1⟩

mutual

/-- Every node of the tree has its Monte Carlo average value / visits
inside the unit interval. -/
def MCTree.ratioAll : MCTree → Bool
  | .mk _ v n _ _ cs =>
    (decide (0 ≤ v / (n : ℚ)) && decide (v / (n : ℚ) ≤ 1)) && MCTree.ratioL cs

/-- The value / visits bound on a list of subtrees. -/
def MCTree.ratioL : List MCTree → Bool
  | [] => true
  | c :: cs => MCTree.ratioAll c && MCTree.ratioL cs

end

mutual

theorem MCTree.bnd_ratio : ∀ (t : MCTree), MCTree.bnd t = true → MCTree.ratioAll t = true
  | .mk r v n rp e cs => fun h => by
    obtain ⟨h1, h2, h3, h4⟩ := MCTree.bnd_fields h
    rw [MCTree.ratioAll]
    simp only [Bool.and_eq_true, decide_eq_true_eq]
    have hn : (0 : ℚ) < (n : ℚ) := by
      have : (1 : ℚ) ≤ (n : ℚ) := by exact_mod_cast h3
      linarith
    refine ⟨⟨div_nonneg h1 (le_of_lt hn), (div_le_one hn).mpr h2⟩, MCTree.bnd_ratioL cs h4⟩

theorem MCTree.bnd_ratioL : ∀ (cs : List MCTree), MCTree.bndL cs = true → MCTree.ratioL cs = true
  | [] => fun _ => rfl
  | c :: cs => fun h => by
    rw [MCTree.bndL] at h
    simp only [Bool.and_eq_true] at h
    rw [MCTree.ratioL]
    simp only [Bool.and_eq_true]
    exact ⟨MCTree.bnd_ratio c h.1, MCTree.bnd_ratioL cs h.2⟩

end

theorem mctsN_inv (sq lg : ℚ → ℚ) (os : Nat → RngO) :
    ∀ (k : Nat) (t : MCTree), MCTree.wfB t = true → MCTree.bnd t = true →
      MCTree.wfB (mctsN sq lg os k t) = true ∧ MCTree.bnd (mctsN sq lg os k t) = true := by
  intro k
  induction k with
  | zero => intro t hw hb; exact ⟨hw, hb⟩
  | succ k0 ih =>
    intro t hw hb
    rw [mctsN]
    have hstep : mctsStep sq lg (os k0) t = (mctsIter sq lg (os k0) t hw).1 := by
      rw [mctsStep, dif_pos hw]
    rw [hstep]
    exact ih _ (mctsIter_wfB sq lg (os k0) (GState.sz (MCTree.root t)) t hw (le_refl _))
      (mctsIter_bnd sq lg (os k0) (GState.sz (MCTree.root t)) t hw (le_refl _) hb).1

/-- A node of the learned-evaluator Monte Carlo tree (MonteCarloNeuralNetwork
in MonteCarloNeuralNetwork.py, over the driver MonteCarloGameTree of
MonteCarloSimulation.py): root state, value, visit count (0 from the
constructor in this variant), iteration count, exploration parameter and
children.  The trained network is an uninterpreted parameter net mapping a
state (through its vector representation) to the predicted class. -/
inductive NNTree : Type where
  | mk (root : GState) (value : ℚ) (visits : Nat) (repeats : Nat) (ec : ℚ)
       (children : List NNTree) : NNTree

/-- The state at this node. -/
@[simp]
def NNTree.root : NNTree → GState
  | .mk r _ _ _ _ _ => r

/-- The value stored at this node. -/
@[simp]
def NNTree.value : NNTree → ℚ
  | .mk _ v _ _ _ _ => v

/-- The number of times this node has been visited. -/
@[simp]
def NNTree.visits : NNTree → Nat
  | .mk _ _ n _ _ _ => n

/-- The configured iteration count (the repeat attribute). -/
@[simp]
def NNTree.repeats : NNTree → Nat
  | .mk _ _ _ rp _ _ => rp

/-- The exploration parameter. -/
@[simp]
def NNTree.ec : NNTree → ℚ
  | .mk _ _ _ _ e _ => e

/-- The child subtrees. -/
@[simp]
def NNTree.children : NNTree → List NNTree
  | .mk _ _ _ _ _ c => c

/-- MonteCarloNeuralNetwork.move_value (MonteCarloNeuralNetwork.py, lines
95-116): the exact game value on a terminal root (1 when the winner differs
from root.turn, 0 when it is root.turn, 0.5 on a tie), otherwise the
network prediction normalised from the classes -1, 0, 1 into [0, 1] and
flipped for the side to move. -/
def nnMoveValue (net : GState → ℚ) (s : GState) : ℚ :=
  match s.winner with
  | some w => if w.1 then (if s.turn ≠ w.2 then 1 else 0) else 1/2
  | none =>
    let p1r := (net s + 1) / 2
    if ¬s.turn then p1r else 1 - p1r

/-- MonteCarloNeuralNetwork.ucb (MonteCarloNeuralNetwork.py, lines 86-93):
value / visits plus the exploration parameter times sqrt(parentVisits)
divided by (1 + visits).  Division is the total division of the rationals;
the Python code would raise ZeroDivisionError at visits = 0. -/
def NNTree.ucbN (sq : ℚ → ℚ) (t : NNTree) (visitsParent : Nat) : ℚ :=
  t.value / (t.visits : ℚ) + t.ec * (sq ((visitsParent : ℚ)) / (1 + (t.visits : ℚ)))

/-- The scanning loop of the driver select_child (MonteCarloSimulation.py,
lines 62-73) for the learned variant. -/
def nnSelGo (sq : ℚ → ℚ) (vp : Nat) : List NNTree → NNTree → Nat → Nat → NNTree × Nat
  | [], best, bi, _ => (best, bi)
  | c :: rest, best, bi, i =>
    if NNTree.ucbN sq best vp < NNTree.ucbN sq c vp
    then nnSelGo sq vp rest c i (i + 1)
    else nnSelGo sq vp rest best bi (i + 1)

/-- select_child of the driver (MonteCarloSimulation.py, lines 62-73) for
the learned variant, also returning the index of the selected child. -/
def NNTree.selectChild (sq : ℚ → ℚ) (t : NNTree) : NNTree × Nat :=
  match t.children with
  | [] => (t, 0)
  | c :: rest => nnSelGo sq t.visits rest c 0 1

/-- Modelled from the spec: the learned-evaluator override of update_value
is missing from src (MonteCarloNeuralNetwork.py never overrides the
abstract MonteCarloGameTree.update_value of MonteCarloSimulation.py, lines
84-86, that its driver calls).  Per the spec, a node's value after its
children are searched becomes
(oldValue * oldVisits + sum(childValues)) / (numChildren + oldVisits). -/
def NNTree.updateValue (t : NNTree) : ℚ :=
  (t.value * (t.visits : ℚ) + (t.children.map NNTree.value).sum) /
    ((t.children.length : ℚ) + (t.visits : ℚ))

mutual

/-- The selection-or-expansion phase of one learned-variant search
iteration (MonteCarloSimulation.py, lines 43-54): a node with children
descends into the ucb-selected child and runs that child's find_value,
which is its configured number of search iterations; a leaf is expanded
and every new child's value is set by move_value (children are created by
expand_tree with value 0 and the loop at line 53 then overwrites each
value, so they are built here with the move_value result directly).  The
fuel argument bounds the recursion depth of the embedded search; every
statement proved about it holds for every fuel. -/
def nnSearchPhase (sq : ℚ → ℚ) (net : GState → ℚ) : Nat → NNTree → NNTree
  | fuel, t =>
    if t.children.isEmpty then
      NNTree.mk t.root t.value t.visits t.repeats t.ec
        (t.root.moves.map (fun m => NNTree.mk m (nnMoveValue net m) 0 t.repeats t.ec []))
    else
      let sel := NNTree.selectChild sq t
      NNTree.mk t.root t.value t.visits t.repeats t.ec
        (t.children.set sel.2 (nnFindValue sq net fuel sel.1.repeats sel.1))
termination_by fuel _ => (fuel, 2, 0)

/-- find_value of the learned-evaluator engine (MonteCarloSimulation.py,
lines 36-39): run monte_carlo_tree_search the given number of times. -/
def nnFindValue (sq : ℚ → ℚ) (net : GState → ℚ) : Nat → Nat → NNTree → NNTree
  | _, 0, t => t
  | fuel, k + 1, t => nnFindValue sq net fuel k (nnMcts sq net fuel t)
termination_by fuel k _ => (fuel, 1, k)

/-- One monte_carlo_tree_search call of the learned-evaluator engine
(MonteCarloSimulation.py, lines 41-60): run the selection-or-expansion
phase, then backpropagate: a node still without children takes the static
evaluation of its root, otherwise its value becomes update_value of the
searched node. -/
def nnMcts (sq : ℚ → ℚ) (net : GState → ℚ) : Nat → NNTree → NNTree
  | 0, t => t
  | fuel + 1, t =>
    let t1 := nnSearchPhase sq net fuel t
    if t1.children.isEmpty then
      NNTree.mk t1.root t1.root.evalp t1.visits t1.repeats t1.ec t1.children
    else
      NNTree.mk t1.root (NNTree.updateValue t1) t1.visits t1.repeats t1.ec t1.children
termination_by fuel _ => (fuel, 0, 0)

end

theorem GTree.expandTree_eq (r : GState) (cs : List GTree) (s : GState) :
    GTree.expandTree (GTree.mk r cs) s =
      if GState.beq s r then
        (if cs.isEmpty then GTree.mk r (r.moves.map (fun m => GTree.mk m []))
         else GTree.mk r cs)
      else GTree.mk r (cs.map (fun c => GTree.expandTree c s)) := by
  rw [GTree.expandTree]
  by_cases hb : GState.beq s r
  · simp [hb]
  · simp only [hb, if_false]
    exact congrArg (GTree.mk r) (List.attach_map_coe cs (fun c => GTree.expandTree c s))

mutual

theorem expand_idem : ∀ (t : GTree) (s : GState),
    GTree.expandTree (GTree.expandTree t s) s = GTree.expandTree t s
  | .mk r cs, s => by
    rw [GTree.expandTree_eq r cs s]
    by_cases hb : GState.beq s r = true
    · rw [if_pos hb]
      by_cases hc : cs.isEmpty = true
      · rw [if_pos hc]
        rw [GTree.expandTree_eq, if_pos hb, ite_self]
      · rw [if_neg hc]
        rw [GTree.expandTree_eq, if_pos hb, if_neg hc]
    · rw [if_neg hb]
      rw [GTree.expandTree_eq, if_neg hb]
      exact congrArg (GTree.mk r) (expand_idemL cs s)

theorem expand_idemL : ∀ (cs : List GTree) (s : GState),
    (cs.map (fun c => GTree.expandTree c s)).map (fun c => GTree.expandTree c s) =
      cs.map (fun c => GTree.expandTree c s)
  | [], _ => rfl
  | c :: rest, s => by
    rw [List.map_cons, List.map_cons, expand_idem c s, expand_idemL rest s]

end

/-- C9.  GameTree.expand_tree is idempotent: expanding a node whose root
matches the target and whose children list is empty creates one child per
legal move of the root; a second call on an already-expanded node leaves
the children unchanged in size and contents; on a non-matching root the
call recurses into the children leaving this node's root in place; and
running expand_tree twice with the same target gives exactly the tree of
running it once. -/
theorem c9_expand_tree_idempotent :
    (∀ (t : GTree) (s : GState), GState.beq s t.root = true → t.children = [] →
      (GTree.expandTree t s).children = t.root.moves.map (fun m => GTree.mk m [])) ∧
    (∀ (t : GTree) (s : GState), GState.beq s t.root = true → t.children ≠ [] →
      GTree.expandTree t s = t) ∧
    (∀ (t : GTree) (s : GState), GState.beq s t.root = false →
      GTree.expandTree t s =
        GTree.mk t.root (t.children.map (fun c => GTree.expandTree c s))) ∧
    (∀ (t : GTree) (s : GState),
      GTree.expandTree (GTree.expandTree t s) s = GTree.expandTree t s) := by
  refine ⟨?_, ?_, ?_, expand_idem⟩
  · rintro ⟨r, cs⟩ s hb hc
    simp only [GTree.root, GTree.children] at hb hc ⊢
    subst hc
    rw [GTree.expandTree_eq, if_pos hb]
    simp
  · rintro ⟨r, cs⟩ s hb hc
    simp only [GTree.root, GTree.children] at hb hc ⊢
    rw [GTree.expandTree_eq, if_pos hb,
      if_neg (by simpa [List.isEmpty_iff] using hc)]
  · rintro ⟨r, cs⟩ s hb
    simp only [GTree.root, GTree.children] at hb ⊢
    rw [GTree.expandTree_eq, if_neg (by simp [hb])]

/-- Witness for C9 at a concrete two-level tree: an unexpanded matching
root gains one child per legal move, and the double expansion equals the
single one. -/
theorem c9_witness :
    GState.beq (GState.mk true none none 0 "a" [GState.mk false (some 3) none 0 "b" []])
        (GTree.mk (GState.mk true none none 0 "a" [GState.mk false (some 3) none 0 "b" []])
          []).root = true ∧
    (GTree.mk (GState.mk true none none 0 "a" [GState.mk false (some 3) none 0 "b" []])
      []).children = [] ∧
    (GTree.expandTree (GTree.mk (GState.mk true none none 0 "a"
        [GState.mk false (some 3) none 0 "b" []]) [])
        (GState.mk true none none 0 "a"
          [GState.mk false (some 3) none 0 "b" []])).children =
      [GTree.mk (GState.mk false (some 3) none 0 "b" []) []] := by
  refine ⟨?_, rfl, ?_⟩
  · simp [GState.beq, GState.beqL]
  · have h := c9_expand_tree_idempotent.1
      (GTree.mk (GState.mk true none none 0 "a"
        [GState.mk false (some 3) none 0 "b" []]) [])
      (GState.mk true none none 0 "a" [GState.mk false (some 3) none 0 "b" []])
      (by simp [GState.beq, GState.beqL]) rfl
    rw [h]
    simp

/-- C5.  GameTree.make_move either finds a child whose previous_move
equals the argument's previous_move - then that child's subtree is
promoted (the argument becomes the root, the matched child's children
become the children, every sibling is discarded) and the call returns
without error - or, when no child matches, it raises MoveNotLegalError
(the error flag of the embedding); the two cases are exhaustive, so the
loop never falls through silently. -/
theorem c5_make_move_finds_or_raises :
    ∀ (t : GTree) (s : GState),
      ((∃ c ∈ t.children, c.root.prevMove = s.prevMove) →
        ∃ c ∈ t.children, c.root.prevMove = s.prevMove ∧
          GTree.makeMove t s = (GTree.mk s c.children, false)) ∧
      ((∀ c ∈ t.children, c.root.prevMove ≠ s.prevMove) →
        GTree.makeMove t s = (t, true)) ∧
      ((GTree.makeMove t s).2 = false ↔ ∃ c ∈ t.children, c.root.prevMove = s.prevMove) := by
  intro t s
  refine ⟨?_, ?_, ?_⟩
  · intro hex
    have hsome : (t.children.find? (fun c => c.root.prevMove == s.prevMove)).isSome := by
      rw [List.find?_isSome]
      obtain ⟨c, hc1, hc2⟩ := hex
      exact ⟨c, hc1, by simpa using hc2⟩
    obtain ⟨c, hc⟩ := Option.isSome_iff_exists.mp hsome
    refine ⟨c, List.mem_of_find?_eq_some hc, by simpa using List.find?_some hc, ?_⟩
    rw [GTree.makeMove, hc]
  · intro hall
    have hnone : t.children.find? (fun c => c.root.prevMove == s.prevMove) = none := by
      rw [List.find?_eq_none]
      intro c hc
      simpa using hall c hc
    rw [GTree.makeMove, hnone]
  · constructor
    · intro hok
      by_contra hno
      push_neg at hno
      have hnone : t.children.find? (fun c => c.root.prevMove == s.prevMove) = none := by
        rw [List.find?_eq_none]
        intro c hc
        simpa using hno c hc
      rw [GTree.makeMove, hnone] at hok
      exact absurd hok (by simp)
    · intro hex
      obtain ⟨c, hc1, hc2⟩ := hex
      have hsome : (t.children.find? (fun c => c.root.prevMove == s.prevMove)).isSome := by
        rw [List.find?_isSome]
        exact ⟨c, hc1, by simpa using hc2⟩
      obtain ⟨c0, hc0⟩ := Option.isSome_iff_exists.mp hsome
      rw [GTree.makeMove, hc0]

/-- Witness for C5 at a concrete tree: the matching child is promoted and
its sibling discarded. -/
theorem c5_witness :
    (∃ c ∈ (GTree.mk (GState.mk true none none 0 "a" [])
        [GTree.mk (GState.mk false (some 1) none 0 "b" []) [],
         GTree.mk (GState.mk false (some 2) none 0 "c" [])
           [GTree.mk (GState.mk true (some 9) none 0 "d" []) []]]).children,
      c.root.prevMove = (GState.mk false (some 2) none 0 "c2" []).prevMove) ∧
    GTree.makeMove (GTree.mk (GState.mk true none none 0 "a" [])
        [GTree.mk (GState.mk false (some 1) none 0 "b" []) [],
         GTree.mk (GState.mk false (some 2) none 0 "c" [])
           [GTree.mk (GState.mk true (some 9) none 0 "d" []) []]])
      (GState.mk false (some 2) none 0 "c2" []) =
      (GTree.mk (GState.mk false (some 2) none 0 "c2" [])
        [GTree.mk (GState.mk true (some 9) none 0 "d" []) []], false) := by
  constructor
  · exact ⟨GTree.mk (GState.mk false (some 2) none 0 "c" [])
      [GTree.mk (GState.mk true (some 9) none 0 "d" []) []], by simp, rfl⟩
  · obtain ⟨c, hc1, hc2, hc3⟩ := (c5_make_move_finds_or_raises
      (GTree.mk (GState.mk true none none 0 "a" [])
        [GTree.mk (GState.mk false (some 1) none 0 "b" []) [],
         GTree.mk (GState.mk false (some 2) none 0 "c" [])
           [GTree.mk (GState.mk true (some 9) none 0 "d" []) []]])
      (GState.mk false (some 2) none 0 "c2" [])).1
      ⟨GTree.mk (GState.mk false (some 2) none 0 "c" [])
        [GTree.mk (GState.mk true (some 9) none 0 "d" []) []], by simp, rfl⟩
    rw [hc3]
    rcases List.mem_cons.mp hc1 with h1 | h1
    · exfalso
      rw [h1] at hc2
      simp at hc2
    · rcases List.mem_cons.mp h1 with h2 | h2
      · rw [h2]
        rfl
      · cases h2

/-- C10.  When make_move raises MoveNotLegalError because no child's
previous_move matches the argument's, the tree is returned exactly as it
was: for the generic GameTree, for MinimaxGameTree (including its stored
value) and for the rollout MonteCarloSimulationGameTree (including its
value and visit statistics), the loop mutates nothing before raising. -/
theorem c10_make_move_error_leaves_tree_unchanged :
    ∀ (s : GState),
      (∀ (t : GTree), (∀ c ∈ t.children, c.root.prevMove ≠ s.prevMove) →
        GTree.makeMove t s = (t, true)) ∧
      (∀ (t : MTree), (∀ c ∈ t.children, c.root.prevMove ≠ s.prevMove) →
        MTree.makeMove t s = (t, true)) ∧
      (∀ (t : MCTree), (∀ c ∈ t.children, c.root.prevMove ≠ s.prevMove) →
        MCTree.makeMove t s = (t, true)) := by
  intro s
  refine ⟨?_, ?_, ?_⟩
  · intro t hall
    have hnone : t.children.find? (fun c => c.root.prevMove == s.prevMove) = none := by
      rw [List.find?_eq_none]
      intro c hc
      simpa using hall c hc
    rw [GTree.makeMove, hnone]
  · intro t hall
    have hnone : t.children.find? (fun c => c.root.prevMove == s.prevMove) = none := by
      rw [List.find?_eq_none]
      intro c hc
      simpa using hall c hc
    rw [MTree.makeMove, hnone]
  · intro t hall
    have hnone : t.children.find? (fun c => c.root.prevMove == s.prevMove) = none := by
      rw [List.find?_eq_none]
      intro c hc
      simpa using hall c hc
    rw [MCTree.makeMove, hnone]

/-- Witness for C10 at a concrete state and trees whose single child does
not match the requested move: all three make_move variants return their
tree untouched together with the raised-error flag. -/
theorem c10_witness :
    (∀ c ∈ (GTree.mk (GState.mk true none none 0 "a" [])
        [GTree.mk (GState.mk false (some 1) none 0 "b" []) []]).children,
      c.root.prevMove ≠ (GState.mk false (some 2) none 0 "c" []).prevMove) ∧
    GTree.makeMove (GTree.mk (GState.mk true none none 0 "a" [])
        [GTree.mk (GState.mk false (some 1) none 0 "b" []) []])
      (GState.mk false (some 2) none 0 "c" []) =
      (GTree.mk (GState.mk true none none 0 "a" [])
        [GTree.mk (GState.mk false (some 1) none 0 "b" []) []], true) ∧
    MTree.makeMove (MTree.mk (GState.mk true none none 0 "a" []) (some (XV.fin 1))
        [MTree.mk (GState.mk false (some 1) none 0 "b" []) none []])
      (GState.mk false (some 2) none 0 "c" []) =
      (MTree.mk (GState.mk true none none 0 "a" []) (some (XV.fin 1))
        [MTree.mk (GState.mk false (some 1) none 0 "b" []) none []], true) ∧
    MCTree.makeMove (MCTree.mk (GState.mk true none none 0 "a" []) 3 5 7 1
        [MCTree.mk (GState.mk false (some 1) none 0 "b" []) 2 4 7 1 []])
      (GState.mk false (some 2) none 0 "c" []) =
      (MCTree.mk (GState.mk true none none 0 "a" []) 3 5 7 1
        [MCTree.mk (GState.mk false (some 1) none 0 "b" []) 2 4 7 1 []], true) := by
  have h := c10_make_move_error_leaves_tree_unchanged (GState.mk false (some 2) none 0 "c" [])
  refine ⟨by simp, ?_, ?_, ?_⟩
  · exact h.1 _ (by simp)
  · exact h.2.1 _ (by simp)
  · exact h.2.2 _ (by simp)

mutual

/-- Every visit count in the tree is 1, the constructor value. -/
def MCTree.onesB : MCTree → Bool
  | .mk _ _ n _ _ cs => decide (n = 1) && MCTree.onesL cs

/-- Every visit count in a list of subtrees is 1. -/
def MCTree.onesL : List MCTree → Bool
  | [] => true
  | c :: cs => MCTree.onesB c && MCTree.onesL cs

end

theorem MCTree.copyR_eq (r : GState) (v : ℚ) (n rp : Nat) (e : ℚ) (cs : List MCTree) :
    MCTree.copyR (MCTree.mk r v n rp e cs) = MCTree.mk r v 1 rp e (cs.map MCTree.copyR) := by
  rw [MCTree.copyR]
  exact congrArg (MCTree.mk r v 1 rp e) (List.attach_map_coe cs MCTree.copyR)

mutual

theorem MCTree.copyR_ones : ∀ (t : MCTree), MCTree.onesB t = true → MCTree.copyR t = t
  | .mk r v n rp e cs => fun h => by
    rw [MCTree.onesB] at h
    simp only [Bool.and_eq_true, decide_eq_true_eq] at h
    rw [MCTree.copyR_eq, h.1, MCTree.copyR_onesL cs h.2]

theorem MCTree.copyR_onesL : ∀ (cs : List MCTree), MCTree.onesL cs = true →
    cs.map MCTree.copyR = cs
  | [], _ => rfl
  | c :: rest, h => by
    rw [MCTree.onesL] at h
    simp only [Bool.and_eq_true] at h
    rw [List.map_cons, MCTree.copyR_ones c h.1, MCTree.copyR_onesL rest h.2]

end

/-- C6 counterexample.  The copy methods are not deep clones of all
descendants: MinimaxGameTree.copy of a tree with one child returns a tree
with no children at all, and the rollout MonteCarloSimulationGameTree.copy
resets a visit count of 5 to the constructor value 1. -/
theorem c6_copy_counterexample :
    (MTree.copyM (MTree.mk (GState.mk true none none 0 "a" []) (some (XV.fin 1))
        [MTree.mk (GState.mk false (some 1) none 0 "b" []) none []])).children = [] ∧
    (MTree.mk (GState.mk true none none 0 "a" []) (some (XV.fin 1))
        [MTree.mk (GState.mk false (some 1) none 0 "b" []) none []]).children ≠ [] ∧
    (MCTree.copyR (MCTree.mk (GState.mk true none none 0 "a" []) 3 5 7 1 [])).visits = 1 ∧
    (MCTree.mk (GState.mk true none none 0 "a" []) 3 5 7 1 []).visits = 5 := by
  refine ⟨rfl, ?_, ?_, rfl⟩
  · simp
  · rw [MCTree.copyR_eq]
    rfl

/-- C6 amended.  MinimaxGameTree.copy clones only the root state and the
stored value, dropping every descendant; the rollout variant's copy clones
root, value, configuration and, recursively, all children, but resets
every visit count to the constructor value 1 - in particular it is the
identity exactly on trees whose visit counts are all 1.  Either way the
copy shares no mutable node with the original. -/
theorem c6_copy_amended :
    (∀ (t : MTree), MTree.copyM t = MTree.mk t.root t.value []) ∧
    (∀ (r : GState) (v : ℚ) (n rp : Nat) (e : ℚ) (cs : List MCTree),
      MCTree.copyR (MCTree.mk r v n rp e cs) =
        MCTree.mk r v 1 rp e (cs.map MCTree.copyR)) ∧
    (∀ (t : MCTree), MCTree.onesB t = true → MCTree.copyR t = t) := by
  exact ⟨fun t => rfl, MCTree.copyR_eq, MCTree.copyR_ones⟩

/-- Witness for the amended C6: a two-level rollout tree with all visit
counts 1 is copied to itself. -/
theorem c6_witness :
    MCTree.onesB (MCTree.mk (GState.mk true none none 0 "a" []) 3 1 7 1
      [MCTree.mk (GState.mk false (some 1) none 0 "b" []) 2 1 7 1 []]) = true ∧
    MCTree.copyR (MCTree.mk (GState.mk true none none 0 "a" []) 3 1 7 1
      [MCTree.mk (GState.mk false (some 1) none 0 "b" []) 2 1 7 1 []]) =
      MCTree.mk (GState.mk true none none 0 "a" []) 3 1 7 1
        [MCTree.mk (GState.mk false (some 1) none 0 "b" []) 2 1 7 1 []] := by
  have h1 : MCTree.onesB (MCTree.mk (GState.mk true none none 0 "a" []) 3 1 7 1
      [MCTree.mk (GState.mk false (some 1) none 0 "b" []) 2 1 7 1 []]) = true := by
    rw [MCTree.onesB, MCTree.onesL, MCTree.onesB, MCTree.onesL]
    simp
  exact ⟨h1, c6_copy_amended.2.2 _ h1⟩

/-- C2 counterexample.  On a terminal root (winner decided) with an empty
memo table and depth 3, find_value computes the static evaluation and
returns with the memo table still empty: the static-evaluation early
return at Player.py lines 77-79 stores nothing under the entry key, so not
every computed value is memoized. -/
theorem c2_memo_counterexample :
    findValue (MTree.mk (GState.mk true none (some (true, true)) 1 "T" []) none [])
        [] 3 ⊥ ⊤ =
      (MTree.mk (GState.mk true none (some (true, true)) 1 "T" [])
        (some (XV.fin 1)) [], []) := by
  rw [findValue]
  rfl

/-- C2 amended.  The memo key is (depth, str(state), alpha, beta) as
computed at entry.  A memo hit returns the cached value with the node's
children untouched (no expansion) and the memo unchanged.  A miss at
depth 0 or on a finished game returns the static evaluation of the root
without storing it.  On every other miss the search runs and the final
value - the node's new stored value - is memoized under the entry key, so
an immediately following lookup of that key succeeds. -/
theorem c2_memoization_amended :
    (∀ (r : GState) (v : Option XV) (cs : List MTree) (memo : Memo) (depth : Int)
        (alpha beta w : XV),
      mlookup memo (memoKey r depth alpha beta) = some w →
        findValue (MTree.mk r v cs) memo depth alpha beta = (MTree.mk r (some w) cs, memo)) ∧
    (∀ (r : GState) (v : Option XV) (cs : List MTree) (memo : Memo) (depth : Int)
        (alpha beta : XV),
      mlookup memo (memoKey r depth alpha beta) = none →
      (depth = 0 ∨ (r.winner).isSome = true) →
        findValue (MTree.mk r v cs) memo depth alpha beta =
          (MTree.mk r (some (XV.fin r.evalp)) cs, memo)) ∧
    (∀ (r : GState) (v : Option XV) (cs : List MTree) (memo : Memo) (depth : Int)
        (alpha beta : XV),
      mlookup memo (memoKey r depth alpha beta) = none →
      depth ≠ 0 → r.winner = none →
        ∃ m1 : Memo,
          (findValue (MTree.mk r v cs) memo depth alpha beta).2 =
            (memoKey r depth alpha beta,
              (findValue (MTree.mk r v cs) memo depth alpha beta).1.valD) :: m1) ∧
    (∀ (key : MemoKey) (w : XV) (m1 : Memo), mlookup ((key, w) :: m1) key = some w) := by
  refine ⟨?_, ?_, ?_, ?_⟩
  · intro r v cs memo depth alpha beta w h
    rw [findValue, h]
  · intro r v cs memo depth alpha beta h hcond
    rw [findValue, h]
    have hc : (decide (depth = 0) || (r.winner).isSome) = true := by
      rw [Bool.or_eq_true]
      rcases hcond with h1 | h1
      · exact Or.inl (decide_eq_true h1)
      · exact Or.inr h1
    rw [if_pos hc]
  · intro r v cs memo depth alpha beta h hd hw
    rw [findValue, h]
    have hc : ¬((decide (depth = 0) || (r.winner).isSome) = true) := by
      rw [Bool.or_eq_true]
      rintro (h1 | h1)
      · exact hd (by simpa using h1)
      · rw [hw] at h1
        simp at h1
    rw [if_neg hc]
    dsimp only
    by_cases ht : r.turn = true
    · rw [if_pos ht]
      exact ⟨(goMax (if cs.isEmpty = true then
          List.map (fun m => MTree.mk m none []) r.moves else cs) memo depth alpha beta).memo,
        by simp [MTree.valD, MTree.value]⟩
    · rw [if_neg ht]
      exact ⟨(goMin (if cs.isEmpty = true then
          List.map (fun m => MTree.mk m none []) r.moves else cs) memo depth alpha beta).memo,
        by simp [MTree.valD, MTree.value]⟩
  · intro key w m1
    rw [mlookup, if_pos rfl]

/-- Witness for the amended C2: a cached value is returned as is with the
memo unchanged; on a fresh interior position the computed value is pushed
into the memo under the entry key. -/
theorem c2_witness :
    mlookup [(memoKey (GState.mk true none none 0 "s" []) 2 ⊥ ⊤, XV.fin 7)]
        (memoKey (GState.mk true none none 0 "s" []) 2 ⊥ ⊤) = some (XV.fin 7) ∧
    findValue (MTree.mk (GState.mk true none none 0 "s" []) none [])
        [(memoKey (GState.mk true none none 0 "s" []) 2 ⊥ ⊤, XV.fin 7)] 2 ⊥ ⊤ =
      (MTree.mk (GState.mk true none none 0 "s" []) (some (XV.fin 7)) [],
        [(memoKey (GState.mk true none none 0 "s" []) 2 ⊥ ⊤, XV.fin 7)]) ∧
    (∃ m1 : Memo,
      (findValue (MTree.mk (GState.mk true none none 0 "q"
          [GState.mk false (some 1) (some (true, true)) 1 "w" []]) none []) [] 2 ⊥ ⊤).2 =
        (memoKey (GState.mk true none none 0 "q"
            [GState.mk false (some 1) (some (true, true)) 1 "w" []]) 2 ⊥ ⊤,
          (findValue (MTree.mk (GState.mk true none none 0 "q"
            [GState.mk false (some 1) (some (true, true)) 1 "w" []]) none []) [] 2 ⊥ ⊤).1.valD)
          :: m1) := by
  refine ⟨?_, ?_, ?_⟩
  · rw [mlookup, if_pos rfl]
  · exact c2_memoization_amended.1 _ _ _ _ _ _ _ _ (by rw [mlookup, if_pos rfl])
  · exact c2_memoization_amended.2.2.1 _ _ _ _ _ _ _ (by rfl) (by decide) rfl

theorem goMax_spec : ∀ (cs : List MTree) (memo : Memo) (depth : Int) (alpha beta : XV),
    ∃ k, k ≤ cs.length ∧
      (goMax cs memo depth alpha beta).kids.length = cs.length ∧
      (goMax cs memo depth alpha beta).kids.drop k = cs.drop k ∧
      (goMax cs memo depth alpha beta).val =
        specMaxPhase (((goMax cs memo depth alpha beta).kids.take k).map MTree.valD)
          alpha beta ∧
      ((goMax cs memo depth alpha beta).cut = true →
        (goMax cs memo depth alpha beta).val = beta) ∧
      ((goMax cs memo depth alpha beta).cut = false → k = cs.length) := by
  intro cs
  induction cs with
  | nil =>
    intro memo depth alpha beta
    rw [goMax]
    exact ⟨0, Nat.zero_le _, rfl, rfl, rfl, fun h => Bool.noConfusion h, fun _ => rfl⟩
  | cons c rest ih =>
    intro memo depth alpha beta
    rw [goMax]
    dsimp only
    by_cases hb : beta ≤ max alpha (findValue c memo (depth - 1) alpha beta).1.valD
    · rw [if_pos hb]
      refine ⟨1, Nat.succ_le_succ (Nat.zero_le _), rfl, rfl, ?_, fun _ => rfl,
        fun h => Bool.noConfusion h⟩
      rw [List.take_succ_cons, List.take_zero, List.map_cons, List.map_nil, specMaxPhase]
      dsimp only
      rw [if_pos hb]
    · rw [if_neg hb]
      obtain ⟨k0, hk0, hlen, hdrop, hval, hcut1, hcut2⟩ :=
        ih (findValue c memo (depth - 1) alpha beta).2 depth
          (max alpha (findValue c memo (depth - 1) alpha beta).1.valD) beta
      refine ⟨k0 + 1, Nat.succ_le_succ hk0, ?_, ?_, ?_, hcut1, ?_⟩
      · rw [List.length_cons, hlen, List.length_cons]
      · rw [List.drop_succ_cons, List.drop_succ_cons]
        exact hdrop
      · rw [List.take_succ_cons, List.map_cons, specMaxPhase]
        dsimp only
        rw [if_neg hb]
        exact hval
      · intro h
        rw [List.length_cons, hcut2 h]

theorem goMin_spec : ∀ (cs : List MTree) (memo : Memo) (depth : Int) (alpha beta : XV),
    ∃ k, k ≤ cs.length ∧
      (goMin cs memo depth alpha beta).kids.length = cs.length ∧
      (goMin cs memo depth alpha beta).kids.drop k = cs.drop k ∧
      (goMin cs memo depth alpha beta).val =
        specMinPhase (((goMin cs memo depth alpha beta).kids.take k).map MTree.valD)
          alpha beta ∧
      ((goMin cs memo depth alpha beta).cut = true →
        (goMin cs memo depth alpha beta).val = alpha) ∧
      ((goMin cs memo depth alpha beta).cut = false → k = cs.length) := by
  intro cs
  induction cs with
  | nil =>
    intro memo depth alpha beta
    rw [goMin]
    exact ⟨0, Nat.zero_le _, rfl, rfl, rfl, fun h => Bool.noConfusion h, fun _ => rfl⟩
  | cons c rest ih =>
    intro memo depth alpha beta
    rw [goMin]
    dsimp only
    by_cases hb : min beta (findValue c memo (depth - 1) alpha beta).1.valD ≤ alpha
    · rw [if_pos hb]
      refine ⟨1, Nat.succ_le_succ (Nat.zero_le _), rfl, rfl, ?_, fun _ => rfl,
        fun h => Bool.noConfusion h⟩
      rw [List.take_succ_cons, List.take_zero, List.map_cons, List.map_nil, specMinPhase]
      dsimp only
      rw [if_pos hb]
    · rw [if_neg hb]
      obtain ⟨k0, hk0, hlen, hdrop, hval, hcut1, hcut2⟩ :=
        ih (findValue c memo (depth - 1) alpha beta).2 depth alpha
          (min beta (findValue c memo (depth - 1) alpha beta).1.valD)
      refine ⟨k0 + 1, Nat.succ_le_succ hk0, ?_, ?_, ?_, hcut1, ?_⟩
      · rw [List.length_cons, hlen, List.length_cons]
      · rw [List.drop_succ_cons, List.drop_succ_cons]
        exact hdrop
      · rw [List.take_succ_cons, List.map_cons, specMinPhase]
        dsimp only
        rw [if_neg hb]
        exact hval
      · intro h
        rw [List.length_cons, hcut2 h]

/-- C1.  In find_value, when it is the maximizing side's turn
(root.turn = true) the engine evaluates children left to right; writing
the evaluated prefix length as k, the running bound follows exactly the
spec recurrence alpha := max(alpha, childValue) (specMaxPhase), and as
soon as alpha >= beta the node's value becomes the fail-hard bound beta,
the loop stops, and the siblings after position k are returned exactly as
they were (never evaluated); without a cutoff every child is evaluated and
the value is the final alpha.  The minimizing side is symmetric with
beta := min(beta, childValue) and fail-hard value alpha.  The last two
conjuncts link the loops to find_value itself on a fresh interior node. -/
theorem c1_alpha_beta_fail_hard :
    (∀ (cs : List MTree) (memo : Memo) (depth : Int) (alpha beta : XV),
      ∃ k, k ≤ cs.length ∧
        (goMax cs memo depth alpha beta).kids.length = cs.length ∧
        (goMax cs memo depth alpha beta).kids.drop k = cs.drop k ∧
        (goMax cs memo depth alpha beta).val =
          specMaxPhase (((goMax cs memo depth alpha beta).kids.take k).map MTree.valD)
            alpha beta ∧
        ((goMax cs memo depth alpha beta).cut = true →
          (goMax cs memo depth alpha beta).val = beta) ∧
        ((goMax cs memo depth alpha beta).cut = false → k = cs.length)) ∧
    (∀ (cs : List MTree) (memo : Memo) (depth : Int) (alpha beta : XV),
      ∃ k, k ≤ cs.length ∧
        (goMin cs memo depth alpha beta).kids.length = cs.length ∧
        (goMin cs memo depth alpha beta).kids.drop k = cs.drop k ∧
        (goMin cs memo depth alpha beta).val =
          specMinPhase (((goMin cs memo depth alpha beta).kids.take k).map MTree.valD)
            alpha beta ∧
        ((goMin cs memo depth alpha beta).cut = true →
          (goMin cs memo depth alpha beta).val = alpha) ∧
        ((goMin cs memo depth alpha beta).cut = false → k = cs.length)) ∧
    (∀ (r : GState) (v : Option XV) (cs : List MTree) (memo : Memo) (depth : Int)
        (alpha beta : XV),
      mlookup memo (memoKey r depth alpha beta) = none → depth ≠ 0 → r.winner = none →
      r.turn = true →
        findValue (MTree.mk r v cs) memo depth alpha beta =
          (MTree.mk r
            (some ((goMax (if cs.isEmpty = true then
                List.map (fun m => MTree.mk m none []) r.moves else cs)
              memo depth alpha beta).val))
            ((goMax (if cs.isEmpty = true then
                List.map (fun m => MTree.mk m none []) r.moves else cs)
              memo depth alpha beta).kids),
           (memoKey r depth alpha beta,
            (goMax (if cs.isEmpty = true then
                List.map (fun m => MTree.mk m none []) r.moves else cs)
              memo depth alpha beta).val) ::
            (goMax (if cs.isEmpty = true then
                List.map (fun m => MTree.mk m none []) r.moves else cs)
              memo depth alpha beta).memo)) ∧
    (∀ (r : GState) (v : Option XV) (cs : List MTree) (memo : Memo) (depth : Int)
        (alpha beta : XV),
      mlookup memo (memoKey r depth alpha beta) = none → depth ≠ 0 → r.winner = none →
      r.turn = false →
        findValue (MTree.mk r v cs) memo depth alpha beta =
          (MTree.mk r
            (some ((goMin (if cs.isEmpty = true then
                List.map (fun m => MTree.mk m none []) r.moves else cs)
              memo depth alpha beta).val))
            ((goMin (if cs.isEmpty = true then
                List.map (fun m => MTree.mk m none []) r.moves else cs)
              memo depth alpha beta).kids),
           (memoKey r depth alpha beta,
            (goMin (if cs.isEmpty = true then
                List.map (fun m => MTree.mk m none []) r.moves else cs)
              memo depth alpha beta).val) ::
            (goMin (if cs.isEmpty = true then
                List.map (fun m => MTree.mk m none []) r.moves else cs)
              memo depth alpha beta).memo)) := by
  refine ⟨goMax_spec, goMin_spec, ?_, ?_⟩
  · intro r v cs memo depth alpha beta h hd hw ht
    rw [findValue, h]
    have hc : ¬((decide (depth = 0) || (r.winner).isSome) = true) := by
      rw [Bool.or_eq_true]
      rintro (h1 | h1)
      · exact hd (by simpa using h1)
      · rw [hw] at h1
        simp at h1
    rw [if_neg hc]
    dsimp only
    rw [if_pos ht]
  · intro r v cs memo depth alpha beta h hd hw ht
    rw [findValue, h]
    have hc : ¬((decide (depth = 0) || (r.winner).isSome) = true) := by
      rw [Bool.or_eq_true]
      rintro (h1 | h1)
      · exact hd (by simpa using h1)
      · rw [hw] at h1
        simp at h1
    rw [if_neg hc]
    dsimp only
    rw [if_neg (by rw [ht]; exact Bool.noConfusion)]

/-- Witness for C1 at a concrete fresh maximizing node: find_value runs the
maximizing loop on the freshly expanded children and memoizes its value. -/
theorem c1_witness :
    mlookup [] (memoKey (GState.mk true none none 0 "s"
        [GState.mk false (some 1) (some (true, true)) 1 "m" []]) 2 ⊥ ⊤) = none ∧
    (2 : Int) ≠ 0 ∧
    (GState.mk true none none 0 "s"
        [GState.mk false (some 1) (some (true, true)) 1 "m" []]).winner = none ∧
    (GState.mk true none none 0 "s"
        [GState.mk false (some 1) (some (true, true)) 1 "m" []]).turn = true ∧
    findValue (MTree.mk (GState.mk true none none 0 "s"
        [GState.mk false (some 1) (some (true, true)) 1 "m" []]) none []) [] 2 ⊥ ⊤ =
      (MTree.mk (GState.mk true none none 0 "s"
          [GState.mk false (some 1) (some (true, true)) 1 "m" []])
        (some ((goMax (if ([] : List MTree).isEmpty = true then
            List.map (fun m => MTree.mk m none [])
              (GState.mk true none none 0 "s"
                [GState.mk false (some 1) (some (true, true)) 1 "m" []]).moves
            else []) [] 2 ⊥ ⊤).val))
        ((goMax (if ([] : List MTree).isEmpty = true then
            List.map (fun m => MTree.mk m none [])
              (GState.mk true none none 0 "s"
                [GState.mk false (some 1) (some (true, true)) 1 "m" []]).moves
            else []) [] 2 ⊥ ⊤).kids),
       (memoKey (GState.mk true none none 0 "s"
            [GState.mk false (some 1) (some (true, true)) 1 "m" []]) 2 ⊥ ⊤,
        (goMax (if ([] : List MTree).isEmpty = true then
            List.map (fun m => MTree.mk m none [])
              (GState.mk true none none 0 "s"
                [GState.mk false (some 1) (some (true, true)) 1 "m" []]).moves
            else []) [] 2 ⊥ ⊤).val) ::
        (goMax (if ([] : List MTree).isEmpty = true then
            List.map (fun m => MTree.mk m none [])
              (GState.mk true none none 0 "s"
                [GState.mk false (some 1) (some (true, true)) 1 "m" []]).moves
            else []) [] 2 ⊥ ⊤).memo) :=
  ⟨rfl, by decide, rfl, rfl,
    c1_alpha_beta_fail_hard.2.2.1 _ _ _ _ _ _ _ rfl (by decide) rfl rfl⟩

/-- C3 counterexample.  At a running (non-terminal) simulated node where
it is player 1's turn (root.turn = true; Game.py: turn is true if it is
player 1's turn) and the uniform-random playout ends with player 1
winning, move_value returns 0, not 1: the reward is not 1 when the side to
move at the simulated node eventually wins - it is 1 exactly when the side
that made the previous move wins. -/
theorem c3_reward_counterexample :
    moveValueR (fun _ => (true, true))
        (GState.mk true none none 0 "w"
          [GState.mk false (some 1) (some (true, true)) 1 "x" []]) = 0 ∧
    (0 : ℚ) ≠ 1 := by
  constructor
  · rfl
  · norm_num

/-- C3 amended.  The rollout reward at the simulated node is 1 when the
playout winner is not the side to move there (the mover into that node
won), 0 when the winner is the side to move, and 0.5 on a tie; during
backpropagation every node on the selection path adds the reward returned
from below to its accumulated value, increments its visit count by one,
and returns 1 - reward, so the polarity flips at every ply; at an expanded
leaf the randomly chosen child receives its own simulation value and one
visit before the flipped reward propagates up. -/
theorem c3_rollout_reward_amended :
    (∀ (pl : GState → Bool × Bool) (s : GState) (d p1 : Bool),
      playGameResult pl s = (d, p1) →
        (d = true → p1 ≠ s.turn → moveValueR pl s = 1) ∧
        (d = true → p1 = s.turn → moveValueR pl s = 0) ∧
        (d = false → moveValueR pl s = 1/2)) ∧
    (∀ (sq lg : ℚ → ℚ) (o : RngO) (r : GState) (v : ℚ) (n rp : Nat) (e : ℚ)
        (cs : List MCTree) (h : MCTree.wfB (MCTree.mk r v n rp e cs) = true),
      cs.isEmpty = false →
        ∃ hw : MCTree.wfB (MCTree.selectChild sq lg (MCTree.mk r v n rp e cs)).1 = true,
          mctsIter sq lg o (MCTree.mk r v n rp e cs) h =
            (MCTree.mk r
              (v + (mctsIter sq lg o
                (MCTree.selectChild sq lg (MCTree.mk r v n rp e cs)).1 hw).2)
              (n + 1) rp e
              (cs.set (MCTree.selectChild sq lg (MCTree.mk r v n rp e cs)).2
                (mctsIter sq lg o
                  (MCTree.selectChild sq lg (MCTree.mk r v n rp e cs)).1 hw).1),
             1 - (mctsIter sq lg o
               (MCTree.selectChild sq lg (MCTree.mk r v n rp e cs)).1 hw).2)) ∧
    (∀ (sq lg : ℚ → ℚ) (o : RngO) (r : GState) (v : ℚ) (n rp : Nat) (e : ℚ)
        (h : MCTree.wfB (MCTree.mk r v n rp e []) = true),
      (r.moves).isEmpty = true →
        mctsIter sq lg o (MCTree.mk r v n rp e []) h =
          (MCTree.mk r (v + moveValueR o.pl r) (n + 1) rp e
            (r.moves.map (fun m => MCTree.mk m 0 1 rp e [])),
           1 - moveValueR o.pl r)) := by
  refine ⟨?_, ?_, ?_⟩
  · intro pl s d p1 hpg
    refine ⟨?_, ?_, ?_⟩
    · intro hd hne
      rw [moveValueR, hpg]
      dsimp only
      rw [hd, if_pos rfl, if_pos hne]
    · intro hd heq
      rw [moveValueR, hpg]
      dsimp only
      rw [hd, if_pos rfl, if_neg (by rw [heq]; exact fun hk => hk rfl)]
    · intro hd
      rw [moveValueR, hpg]
      dsimp only
      rw [hd, if_neg Bool.noConfusion]
  · intro sq lg o r v n rp e cs h hcs
    refine ⟨(MCTree.wfL_mem (MCTree.wfB_children h) (selectChild_mem sq lg
      (MCTree.mk r v n rp e cs) (by simpa [List.isEmpty_iff] using
        (by rw [hcs]; exact Bool.noConfusion : ¬cs.isEmpty = true)))).1, ?_⟩
    rw [mctsIter]
    rw [dif_neg (by rw [hcs]; exact Bool.noConfusion : ¬cs.isEmpty = true)]
  · intro sq lg o r v n rp e h hme
    rw [mctsIter]
    rw [dif_pos (show ([] : List MCTree).isEmpty = true from rfl)]
    dsimp only
    have hm0 : r.moves = [] := List.isEmpty_iff.mp hme
    rw [if_pos (by rw [hm0]; rfl : (List.map (fun m => MCTree.mk m 0 1 rp e [])
      r.moves).isEmpty = true)]

/-- Witness for the amended C3: the reward mapping at a winning playout for
the previous mover, and the backpropagation equation at a concrete
one-child tree. -/
theorem c3_witness :
    playGameResult (fun _ => (true, false)) (GState.mk true none none 0 "s" []) =
      (true, false) ∧
    (false : Bool) ≠ (GState.mk true none none 0 "s" []).turn ∧
    moveValueR (fun _ => (true, false)) (GState.mk true none none 0 "s" []) = 1 ∧
    ([MCTree.mk (GState.mk false (some 1) (some (true, true)) 1 "m" []) 0 1 7 1
      []] : List MCTree).isEmpty = false ∧
    (∃ hw : MCTree.wfB (MCTree.selectChild id id (MCTree.mk
        (GState.mk true none none 0 "s"
          [GState.mk false (some 1) (some (true, true)) 1 "m" []]) 0 1 7 1
        [MCTree.mk (GState.mk false (some 1) (some (true, true)) 1 "m" []) 0 1 7 1
          []])).1 = true,
      mctsIter id id (RngO.mk (fun _ => 0) (fun _ => (true, true)))
          (MCTree.mk (GState.mk true none none 0 "s"
            [GState.mk false (some 1) (some (true, true)) 1 "m" []]) 0 1 7 1
            [MCTree.mk (GState.mk false (some 1) (some (true, true)) 1 "m" []) 0 1 7 1 []])
          (by rfl) =
        (MCTree.mk (GState.mk true none none 0 "s"
            [GState.mk false (some 1) (some (true, true)) 1 "m" []])
          (0 + (mctsIter id id (RngO.mk (fun _ => 0) (fun _ => (true, true)))
            (MCTree.selectChild id id (MCTree.mk
              (GState.mk true none none 0 "s"
                [GState.mk false (some 1) (some (true, true)) 1 "m" []]) 0 1 7 1
              [MCTree.mk (GState.mk false (some 1) (some (true, true)) 1 "m" []) 0 1 7 1
                []])).1 hw).2)
          (1 + 1) 7 1
          ([MCTree.mk (GState.mk false (some 1) (some (true, true)) 1 "m" []) 0 1 7 1
            []].set
            (MCTree.selectChild id id (MCTree.mk
              (GState.mk true none none 0 "s"
                [GState.mk false (some 1) (some (true, true)) 1 "m" []]) 0 1 7 1
              [MCTree.mk (GState.mk false (some 1) (some (true, true)) 1 "m" []) 0 1 7 1
                []])).2
            (mctsIter id id (RngO.mk (fun _ => 0) (fun _ => (true, true)))
              (MCTree.selectChild id id (MCTree.mk
                (GState.mk true none none 0 "s"
                  [GState.mk false (some 1) (some (true, true)) 1 "m" []]) 0 1 7 1
                [MCTree.mk (GState.mk false (some 1) (some (true, true)) 1 "m" []) 0 1 7 1
                  []])).1 hw).1),
         1 - (mctsIter id id (RngO.mk (fun _ => 0) (fun _ => (true, true)))
           (MCTree.selectChild id id (MCTree.mk
             (GState.mk true none none 0 "s"
               [GState.mk false (some 1) (some (true, true)) 1 "m" []]) 0 1 7 1
             [MCTree.mk (GState.mk false (some 1) (some (true, true)) 1 "m" []) 0 1 7 1
               []])).1 hw).2)) := by
  refine ⟨rfl, by decide, ?_, rfl, ?_⟩
  · exact ((c3_rollout_reward_amended.1 (fun _ => (true, false))
      (GState.mk true none none 0 "s" []) true false) rfl).1 rfl (by decide)
  · exact c3_rollout_reward_amended.2.1 id id (RngO.mk (fun _ => 0) (fun _ => (true, true)))
      _ 0 1 7 1 _ (by rfl) rfl

theorem selGo_ucb_max (sq lg : ℚ → ℚ) (vp : Nat) :
    ∀ (cs : List MCTree) (best : MCTree) (bi i : Nat),
      MCTree.ucbR sq lg best vp ≤ MCTree.ucbR sq lg (selGo sq lg vp cs best bi i).1 vp ∧
      ∀ c ∈ cs, MCTree.ucbR sq lg c vp ≤ MCTree.ucbR sq lg (selGo sq lg vp cs best bi i).1 vp := by
  intro cs
  induction cs with
  | nil =>
    intro best bi i
    exact ⟨le_refl _, by intro c hc; cases hc⟩
  | cons c rest ih =>
    intro best bi i
    rw [selGo]
    by_cases hb : MCTree.ucbR sq lg best vp < MCTree.ucbR sq lg c vp
    · rw [if_pos hb]
      obtain ⟨h1, h2⟩ := ih c i (i + 1)
      refine ⟨le_trans (le_of_lt hb) h1, ?_⟩
      intro d hd
      rcases List.mem_cons.mp hd with h3 | h3
      · rw [h3]; exact h1
      · exact h2 d h3
    · rw [if_neg hb]
      obtain ⟨h1, h2⟩ := ih best bi (i + 1)
      refine ⟨h1, ?_⟩
      intro d hd
      rcases List.mem_cons.mp hd with h3 | h3
      · rw [h3]; exact le_trans (not_lt.mp hb) h1
      · exact h2 d h3

/-- C4.  The ucb of a never-visited child is infinite; for a visited child
it is the exploitation term value / visits plus the exploration term
explorationConstant * sqrt(log(parentVisits) / visits) (with sqrt and log
the uninterpreted sq and lg); select_child always returns a child of the
node attaining the maximal ucb with respect to the parent visit count;
whenever some child is unvisited, the selected child is unvisited; and on
a node with children one search iteration descends exactly into the
selected child, replacing it in place. -/
theorem c4_ucb_selection :
    (∀ (sq lg : ℚ → ℚ) (t : MCTree) (vp : Nat), t.visits = 0 →
      MCTree.ucbR sq lg t vp = ⊤) ∧
    (∀ (sq lg : ℚ → ℚ) (t : MCTree) (vp : Nat), t.visits ≠ 0 →
      MCTree.ucbR sq lg t vp =
        ((t.value / (t.visits : ℚ) + t.ec * sq (lg ((vp : ℚ)) / (t.visits : ℚ)) : ℚ) :
          WithTop ℚ)) ∧
    (∀ (sq lg : ℚ → ℚ) (t : MCTree), t.children ≠ [] →
      (MCTree.selectChild sq lg t).1 ∈ t.children ∧
      ∀ c ∈ t.children,
        MCTree.ucbR sq lg c t.visits ≤
          MCTree.ucbR sq lg (MCTree.selectChild sq lg t).1 t.visits) ∧
    (∀ (sq lg : ℚ → ℚ) (t : MCTree), t.children ≠ [] →
      (∃ c ∈ t.children, c.visits = 0) →
      ((MCTree.selectChild sq lg t).1).visits = 0) ∧
    (∀ (sq lg : ℚ → ℚ) (o : RngO) (r : GState) (v : ℚ) (n rp : Nat) (e : ℚ)
        (cs : List MCTree) (h : MCTree.wfB (MCTree.mk r v n rp e cs) = true),
      cs.isEmpty = false →
        ∃ hw : MCTree.wfB (MCTree.selectChild sq lg (MCTree.mk r v n rp e cs)).1 = true,
          (mctsIter sq lg o (MCTree.mk r v n rp e cs) h).1.children =
            cs.set (MCTree.selectChild sq lg (MCTree.mk r v n rp e cs)).2
              (mctsIter sq lg o
                (MCTree.selectChild sq lg (MCTree.mk r v n rp e cs)).1 hw).1) := by
  have hmax : ∀ (sq lg : ℚ → ℚ) (t : MCTree), t.children ≠ [] →
      (MCTree.selectChild sq lg t).1 ∈ t.children ∧
      ∀ c ∈ t.children,
        MCTree.ucbR sq lg c t.visits ≤
          MCTree.ucbR sq lg (MCTree.selectChild sq lg t).1 t.visits := by
    intro sq lg t hne
    refine ⟨selectChild_mem sq lg t hne, ?_⟩
    cases t with
    | mk r v n rp e cs =>
      cases cs with
      | nil => exact absurd rfl hne
      | cons c rest =>
        intro d hd
        rw [MCTree.selectChild]
        simp only [MCTree.children, MCTree.visits] at hd ⊢
        obtain ⟨h1, h2⟩ := selGo_ucb_max sq lg n rest c 0 1
        rcases List.mem_cons.mp hd with h3 | h3
        · rw [h3]; exact h1
        · exact h2 d h3
  refine ⟨?_, ?_, hmax, ?_, ?_⟩
  · intro sq lg t vp h
    rw [MCTree.ucbR, if_pos h]
  · intro sq lg t vp h
    rw [MCTree.ucbR, if_neg h]
    exact WithTop.coe_inj.mpr (add_comm _ _)
  · intro sq lg t hne hex
    obtain ⟨cu, hcu1, hcu2⟩ := hex
    have htop : MCTree.ucbR sq lg cu t.visits = ⊤ := by
      rw [MCTree.ucbR, if_pos hcu2]
    have hle := (hmax sq lg t hne).2 cu hcu1
    rw [htop] at hle
    have hsel : MCTree.ucbR sq lg (MCTree.selectChild sq lg t).1 t.visits = ⊤ :=
      top_le_iff.mp hle
    by_contra hnz
    rw [MCTree.ucbR, if_neg hnz] at hsel
    exact WithTop.coe_ne_top hsel
  · intro sq lg o r v n rp e cs h hcs
    refine ⟨(MCTree.wfL_mem (MCTree.wfB_children h) (selectChild_mem sq lg
      (MCTree.mk r v n rp e cs) (by simpa [List.isEmpty_iff] using
        (by rw [hcs]; exact Bool.noConfusion : ¬cs.isEmpty = true)))).1, ?_⟩
    rw [mctsIter]
    rw [dif_neg (by rw [hcs]; exact Bool.noConfusion : ¬cs.isEmpty = true)]
    rfl

/-- Witness for C4 at a concrete node with a visited first child and an
unvisited second child: the unvisited child is selected. -/
theorem c4_witness :
    (MCTree.mk (GState.mk true none none 0 "s" []) 1 3 7 1
      [MCTree.mk (GState.mk false (some 1) none 0 "b" []) 1 1 7 1 [],
       MCTree.mk (GState.mk false (some 2) none 0 "c" []) 0 0 7 1 []]).children ≠ [] ∧
    (∃ c ∈ (MCTree.mk (GState.mk true none none 0 "s" []) 1 3 7 1
      [MCTree.mk (GState.mk false (some 1) none 0 "b" []) 1 1 7 1 [],
       MCTree.mk (GState.mk false (some 2) none 0 "c" []) 0 0 7 1 []]).children,
      c.visits = 0) ∧
    ((MCTree.selectChild id id (MCTree.mk (GState.mk true none none 0 "s" []) 1 3 7 1
      [MCTree.mk (GState.mk false (some 1) none 0 "b" []) 1 1 7 1 [],
       MCTree.mk (GState.mk false (some 2) none 0 "c" []) 0 0 7 1 []])).1).visits = 0 := by
  refine ⟨by simp, ?_, ?_⟩
  · exact ⟨MCTree.mk (GState.mk false (some 2) none 0 "c" []) 0 0 7 1 [], by simp, rfl⟩
  · exact c4_ucb_selection.2.2.2.1 id id _ (by simp)
      ⟨MCTree.mk (GState.mk false (some 2) none 0 "c" []) 0 0 7 1 [], by simp, rfl⟩

/-- C8.  For every number of rollout search iterations from any well-formed
tree satisfying the reward-count invariant (as every engine-built tree
does: nodes start with value 0 and visits 1), every node of the resulting
tree has its average value / visits inside [0, 1]. -/
theorem c8_value_visits_ratio :
    ∀ (sq lg : ℚ → ℚ) (os : Nat → RngO) (k : Nat) (t : MCTree),
      MCTree.wfB t = true → MCTree.bnd t = true →
      MCTree.ratioAll (mctsN sq lg os k t) = true := by
  intro sq lg os k t hw hb
  exact MCTree.bnd_ratio _ (mctsN_inv sq lg os k t hw hb).2

/-- Witness for C8: three iterations on a freshly constructed root with one
legal move keep every value / visits ratio inside the unit interval. -/
theorem c8_witness :
    MCTree.wfB (MCTree.mk (GState.mk true none none 0 "s"
      [GState.mk false (some 1) (some (true, true)) 1 "m" []]) 0 1 7 1 []) = true ∧
    MCTree.bnd (MCTree.mk (GState.mk true none none 0 "s"
      [GState.mk false (some 1) (some (true, true)) 1 "m" []]) 0 1 7 1 []) = true ∧
    MCTree.ratioAll (mctsN id id (fun _ => RngO.mk (fun _ => 0) (fun _ => (true, true))) 3
      (MCTree.mk (GState.mk true none none 0 "s"
        [GState.mk false (some 1) (some (true, true)) 1 "m" []]) 0 1 7 1 [])) = true := by
  refine ⟨rfl, by rfl, ?_⟩
  exact c8_value_visits_ratio id id _ 3 _ rfl (by rfl)

/-- C7 (update_value modelled from the spec).  In the learned-evaluator
variant, after the search phase of an iteration leaves the node with
children, the backpropagation sets the node's value to
(oldValue * oldVisits + sum(childValues)) / (numChildren + oldVisits),
where oldValue and oldVisits are the node's value and visit count (which
the search phase does not change); this blended weighting differs from the
simple mean of the child values. -/
theorem c7_running_average_update :
    (∀ (sq : ℚ → ℚ) (net : GState → ℚ) (fuel : Nat) (t : NNTree),
      (nnSearchPhase sq net fuel t).children.isEmpty = false →
        (nnMcts sq net (fuel + 1) t).value =
          ((nnSearchPhase sq net fuel t).value *
              (((nnSearchPhase sq net fuel t).visits : ℚ)) +
            ((nnSearchPhase sq net fuel t).children.map NNTree.value).sum) /
            ((((nnSearchPhase sq net fuel t).children.length : ℚ)) +
              (((nnSearchPhase sq net fuel t).visits : ℚ)))) ∧
    (∀ (sq : ℚ → ℚ) (net : GState → ℚ) (fuel : Nat) (t : NNTree),
      (nnSearchPhase sq net fuel t).value = t.value ∧
      (nnSearchPhase sq net fuel t).visits = t.visits) ∧
    NNTree.updateValue (NNTree.mk (GState.mk true none none 0 "s" []) 1 2 5 1
        [NNTree.mk (GState.mk false (some 1) none 0 "b" []) 0 0 5 1 [],
         NNTree.mk (GState.mk false (some 2) none 0 "c" []) 0 0 5 1 []]) ≠
      ((NNTree.mk (GState.mk true none none 0 "s" []) 1 2 5 1
        [NNTree.mk (GState.mk false (some 1) none 0 "b" []) 0 0 5 1 [],
         NNTree.mk (GState.mk false (some 2) none 0 "c" []) 0 0 5 1
           []]).children.map NNTree.value).sum /
        (((NNTree.mk (GState.mk true none none 0 "s" []) 1 2 5 1
          [NNTree.mk (GState.mk false (some 1) none 0 "b" []) 0 0 5 1 [],
           NNTree.mk (GState.mk false (some 2) none 0 "c" []) 0 0 5 1
             []]).children.length : ℚ)) := by
  refine ⟨?_, ?_, ?_⟩
  · intro sq net fuel t h
    rw [nnMcts]
    rw [if_neg (by rw [h]; exact Bool.noConfusion)]
    rfl
  · intro sq net fuel t
    rw [nnSearchPhase]
    by_cases hc : t.children.isEmpty = true
    · rw [if_pos hc]
      exact ⟨rfl, rfl⟩
    · rw [if_neg hc]
      exact ⟨rfl, rfl⟩
  · rw [NNTree.updateValue]
    norm_num

/-- Witness for C7: one iteration at a concrete leaf whose expansion
produces one child gives the blended value. -/
theorem c7_witness :
    (nnSearchPhase id (fun _ => 0) 0 (NNTree.mk (GState.mk true none none 0 "s"
      [GState.mk false (some 1) (some (true, true)) 1 "m" []]) 0 0 5 1
      [])).children.isEmpty = false ∧
    (nnMcts id (fun _ => 0) 1 (NNTree.mk (GState.mk true none none 0 "s"
        [GState.mk false (some 1) (some (true, true)) 1 "m" []]) 0 0 5 1 [])).value =
      ((nnSearchPhase id (fun _ => 0) 0 (NNTree.mk (GState.mk true none none 0 "s"
          [GState.mk false (some 1) (some (true, true)) 1 "m" []]) 0 0 5 1 [])).value *
          (((nnSearchPhase id (fun _ => 0) 0 (NNTree.mk (GState.mk true none none 0 "s"
            [GState.mk false (some 1) (some (true, true)) 1 "m" []]) 0 0 5 1
            [])).visits : ℚ)) +
        ((nnSearchPhase id (fun _ => 0) 0 (NNTree.mk (GState.mk true none none 0 "s"
          [GState.mk false (some 1) (some (true, true)) 1 "m" []]) 0 0 5 1
          [])).children.map NNTree.value).sum) /
        ((((nnSearchPhase id (fun _ => 0) 0 (NNTree.mk (GState.mk true none none 0 "s"
          [GState.mk false (some 1) (some (true, true)) 1 "m" []]) 0 0 5 1
          [])).children.length : ℚ)) +
          (((nnSearchPhase id (fun _ => 0) 0 (NNTree.mk (GState.mk true none none 0 "s"
            [GState.mk false (some 1) (some (true, true)) 1 "m" []]) 0 0 5 1
            [])).visits : ℚ))) := by
  have hph : (nnSearchPhase id (fun _ => 0) 0 (NNTree.mk (GState.mk true none none 0 "s"
      [GState.mk false (some 1) (some (true, true)) 1 "m" []]) 0 0 5 1
      [])).children.isEmpty = false := by
    rw [nnSearchPhase]
    simp
  exact ⟨hph, c7_running_average_update.1 id (fun _ => 0) 0 _ hph⟩
